import Mathlib

/-!
Verification of the `wt` repository's pattern-based file copier
(`internal/copy/copy.go`) and interactive fuzzy selector
(`internal/tui/selector.go`) against its design spec.

The filesystem is modelled as a finite snapshot of `Lstat` results:
a list of (relative path, kind) entries, where kind is file, real
directory, or symlink.  Paths are the strings the Go code manipulates;
all helper functions below are transcribed from the Go source
(`strings.TrimSpace` / `TrimSuffix`, `filepath.Clean`, `strings.HasPrefix`,
byte-length ordering of `sort.Slice`), restricted to `/`-separated
relative paths as used on the Linux target.
-/

/-- Kind of a filesystem entry as reported by `os.Lstat`: a regular file,
a real directory, or a symbolic link (never dereferenced). -/
inductive FKind
  | file
  | dir
  | symlink
deriving DecidableEq

/-- A finite filesystem snapshot under one root: relative path to kind. -/
structure FSys where
  entries : List (String × FKind)

/-- Lookup of a path in a snapshot, first match wins (models `os.Lstat`
of the joined path relative to the root). -/
def lookupEntry : List (String × FKind) → String → Option FKind
  | [], _ => none
  | e :: es, p => if e.1 = p then some e.2 else lookupEntry es p

def FSys.lookup (fs : FSys) (p : String) : Option FKind :=
  lookupEntry fs.entries p

/-- The whitespace set of Go `strings.TrimSpace` (ASCII part plus NEL and
NBSP; other Unicode space classes are outside the model). -/
def isGoSpace (c : Char) : Bool :=
  [9, 10, 11, 12, 13, 32, 133, 160].contains c.toNat

def trimChars (cs : List Char) : List Char :=
  ((cs.dropWhile isGoSpace).reverse.dropWhile isGoSpace).reverse

/-- One `strings.TrimSuffix(p, "/")`: drop a single trailing slash. -/
def dropTrailSlash (cs : List Char) : List Char :=
  match cs.getLast? with
  | some c => if c = '/' then cs.dropLast else cs
  | none => cs

/-- Splitting a path on the separator, as `strings.Split(p, "/")`. -/
def splitSlashAux : List Char → List Char → List String
  | [], acc => [String.mk acc.reverse]
  | c :: cs, acc =>
    if c = '/' then String.mk acc.reverse :: splitSlashAux cs []
    else splitSlashAux cs (c :: acc)

def splitSlash (s : String) : List String :=
  splitSlashAux s.toList []

/-- One step of `filepath.Clean` for relative paths: drop empty and dot
segments, resolve a dotdot against the last kept segment. -/
def cleanSegsStep (acc : List String) (s : String) : List String :=
  if s = "" ∨ s = "." then acc
  else if s = ".." then
    match acc.getLast? with
    | none => [".."]
    | some t => if t = ".." then acc ++ [".."] else acc.dropLast
  else acc ++ [s]

def joinSegs : List String → String
  | [] => "."
  | [s] => s
  | s :: rest => s ++ "/" ++ joinSegs rest

/-- Transcription of `normalizeRelPath` in copy.go: trim space, strip a
trailing separator (the Go code strips `"/"` and then the OS separator,
which on Linux is again `"/"`), return empty for empty, else
`filepath.Clean`. -/
def normalizeRelPath (p : String) : String :=
  let cs := trimChars p.toList
  let cs := dropTrailSlash (dropTrailSlash cs)
  if cs = [] then ""
  else joinSegs ((splitSlashAux cs []).foldl cleanSegsStep [])

/-- Byte-wise lexicographic comparison of strings, as Go `<` on strings.
UTF-8 byte order coincides with code-point order. -/
def lexLt : List Char → List Char → Bool
  | [], [] => false
  | [], _ :: _ => true
  | _ :: _, [] => false
  | a :: as, b :: bs => if a = b then lexLt as bs else decide (a < b)

def charUtf8Len (c : Char) : Nat :=
  if c.toNat ≤ 127 then 1 else if c.toNat ≤ 2047 then 2
  else if c.toNat ≤ 65535 then 3 else 4

def listByteLen (cs : List Char) : Nat :=
  (cs.map charUtf8Len).sum

/-- Go `len(s)`: the UTF-8 byte length. -/
def byteLen (s : String) : Nat :=
  listByteLen s.toList

/-- Non-strict string order (Go `a < b || a == b`). -/
def strLe (a b : String) : Prop :=
  lexLt a.toList b.toList = true ∨ a = b

/-- The comparator used by `filterDescendants` via `sort.Slice`: by byte
length ascending, ties by lexicographic order. -/
def pathLe (a b : String) : Prop :=
  byteLen a < byteLen b ∨ (byteLen a = byteLen b ∧ strLe a b)

instance decStrLe : DecidableRel strLe := fun a b => by
  unfold strLe; infer_instance

instance decPathLe : DecidableRel pathLe := fun a b => by
  unfold pathLe; infer_instance

theorem lexLt_irrefl : ∀ as, lexLt as as = false
  | [] => rfl
  | a :: as => by simp [lexLt, lexLt_irrefl as]

theorem lexLt_trans : ∀ {as bs cs : List Char},
    lexLt as bs = true → lexLt bs cs = true → lexLt as cs = true
  | [], [], _, h1, _ => by simp [lexLt] at h1
  | [], _ :: _, [], _, h2 => by simp [lexLt] at h2
  | [], _ :: _, _ :: _, _, _ => rfl
  | _ :: _, [], _, h1, _ => by simp [lexLt] at h1
  | _ :: _, _ :: _, [], _, h2 => by simp [lexLt] at h2
  | a :: as, b :: bs, c :: cs, h1, h2 => by
    simp only [lexLt] at h1 h2 ⊢
    by_cases hab : a = b <;> by_cases hbc : b = c
    · subst hab; subst hbc
      rw [if_pos rfl] at h1 h2 ⊢
      exact lexLt_trans h1 h2
    · subst hab
      simp only [if_pos rfl] at h1
      simp only [if_neg hbc] at h2
      have hlt : a < c := by
        have := of_decide_eq_true h2
        exact this
      have hne : a ≠ c := ne_of_lt hlt
      simp [if_neg hne, hlt]
    · subst hbc
      simp only [if_neg hab] at h1
      have hlt : a < b := of_decide_eq_true h1
      have hne : a ≠ b := ne_of_lt hlt
      simp [if_neg hne, hlt]
    · simp only [if_neg hab] at h1
      simp only [if_neg hbc] at h2
      have h1 : a < b := of_decide_eq_true h1
      have h2 : b < c := of_decide_eq_true h2
      have hlt : a < c := lt_trans h1 h2
      simp [if_neg (ne_of_lt hlt), hlt]

theorem lexLt_total : ∀ as bs : List Char,
    as ≠ bs → lexLt as bs = true ∨ lexLt bs as = true
  | [], [], h => absurd rfl h
  | [], _ :: _, _ => Or.inl rfl
  | _ :: _, [], _ => Or.inr rfl
  | a :: as, b :: bs, h => by
    by_cases hab : a = b
    · subst hab
      have hne : as ≠ bs := fun hh => h (by rw [hh])
      rcases lexLt_total as bs hne with h1 | h1
      · exact Or.inl (by simp [lexLt, h1])
      · exact Or.inr (by simp [lexLt, h1])
    · rcases lt_or_gt_of_ne hab with hlt | hlt
      · exact Or.inl (by simp [lexLt, if_neg hab, hlt])
      · have hba : b ≠ a := fun hh => hab hh.symm
        exact Or.inr (by simp [lexLt, if_neg hba, hlt])

theorem lexLt_asymm {as bs : List Char}
    (h1 : lexLt as bs = true) (h2 : lexLt bs as = true) : False := by
  have := lexLt_trans h1 h2
  rw [lexLt_irrefl] at this
  exact Bool.false_ne_true this

theorem toList_injective {a b : String} (h : a.toList = b.toList) : a = b := by
  cases a; cases b
  simp only [String.toList] at h
  exact congrArg String.mk h

instance : IsTrans String strLe where
  trans a b c h1 h2 := by
    rcases h1 with h1 | h1
    · rcases h2 with h2 | h2
      · exact Or.inl (lexLt_trans h1 h2)
      · subst h2; exact Or.inl h1
    · subst h1; exact h2

instance : IsAntisymm String strLe where
  antisymm a b h1 h2 := by
    rcases h1 with h1 | h1
    · rcases h2 with h2 | h2
      · exact (lexLt_asymm h1 h2).elim
      · exact h2.symm
    · exact h1

instance : IsTotal String strLe where
  total a b := by
    by_cases h : a = b
    · exact Or.inl (Or.inr h)
    · have hl : a.toList ≠ b.toList := fun hh => h (toList_injective hh)
      rcases lexLt_total _ _ hl with h1 | h1
      · exact Or.inl (Or.inl h1)
      · exact Or.inr (Or.inl h1)

instance : IsTrans String pathLe where
  trans a b c h1 h2 := by
    rcases h1 with h1 | ⟨e1, s1⟩
    · rcases h2 with h2 | ⟨e2, s2⟩
      · exact Or.inl (lt_trans h1 h2)
      · exact Or.inl (e2 ▸ h1)
    · rcases h2 with h2 | ⟨e2, s2⟩
      · exact Or.inl (e1 ▸ h2)
      · exact Or.inr ⟨e1.trans e2, Trans.trans s1 s2⟩

instance : IsAntisymm String pathLe where
  antisymm a b h1 h2 := by
    rcases h1 with h1 | ⟨e1, s1⟩
    · rcases h2 with h2 | ⟨e2, s2⟩
      · exact absurd (lt_trans h1 h2) (lt_irrefl _)
      · exact absurd h1 (by rw [e2]; exact lt_irrefl _)
    · rcases h2 with h2 | ⟨e2, s2⟩
      · exact absurd h2 (by rw [e1]; exact lt_irrefl _)
      · exact IsAntisymm.antisymm (r := strLe) a b s1 s2

instance : IsTotal String pathLe where
  total a b := by
    rcases Nat.lt_trichotomy (byteLen a) (byteLen b) with h | h | h
    · exact Or.inl (Or.inl h)
    · rcases IsTotal.total (r := strLe) a b with hs | hs
      · exact Or.inl (Or.inr ⟨h, hs⟩)
      · exact Or.inr (Or.inr ⟨h.symm, hs⟩)
    · exact Or.inr (Or.inl h)

/-- The `sort.Slice` call in `filterDescendants`: length ascending, then
lexicographic.  Go's sort is unstable, but this comparator is total and
antisymmetric, so the sorted permutation is unique and insertion sort
models it exactly. -/
def sortPaths (paths : List String) : List String :=
  List.insertionSort pathLe paths

/-- The final `sort.Strings(paths)` of `CopyFiles`. -/
def sortLex (paths : List String) : List String :=
  List.insertionSort strLe paths

/-- Go `strings.HasPrefix(p, dir + "/")`: is `p` strictly below `dir`. -/
def isUnder (p dir : String) : Bool :=
  List.isPrefixOf (dir.toList ++ ['/']) p.toList

/-- The accept/drop loop of `filterDescendants`: walk candidates in sorted
order; drop a candidate lying under an already-kept real directory;
record kept non-symlink directories as future ancestors (`os.Lstat`
failure and symlinks are skipped when recording). -/
def fdLoop (fs : FSys) : List String → List String → List String → List String
  | [], kept, _ => kept
  | p :: rest, kept, keptDirs =>
    if p = "" then fdLoop fs rest kept keptDirs
    else if keptDirs.any (fun dir => isUnder p dir) then fdLoop fs rest kept keptDirs
    else if fs.lookup p = some FKind.dir then fdLoop fs rest (kept ++ [p]) (keptDirs ++ [p])
    else fdLoop fs rest (kept ++ [p]) keptDirs

/-- Transcription of `filterDescendants` in copy.go: normalize all match
paths, sort by (length, lex), then run the accept/drop loop. -/
def filterDescendants (fs : FSys) (ms : List String) : List String :=
  fdLoop fs (sortPaths (ms.map normalizeRelPath)) [] []

example : normalizeRelPath "node_modules/" = "node_modules" := by decide
example : normalizeRelPath " a//b/./c/../d " = "a/b/d" := by decide
example : isUnder "node_modules/a/node_modules" "node_modules" = true := by decide
example : isUnder "packages/x/node_modules" "node_modules" = false := by decide
example : sortPaths ["packages/x/node_modules", "node_modules", "node_modules/a/node_modules"] =
    ["node_modules", "packages/x/node_modules", "node_modules/a/node_modules"] := by decide
example :
    filterDescendants ⟨[("node_modules", FKind.dir), ("packages/x/node_modules", FKind.dir)]⟩
      ["node_modules", "node_modules/a/node_modules", "packages/x/node_modules"] =
    ["node_modules", "packages/x/node_modules"] := by decide

theorem listByteLen_append (xs ys : List Char) :
    listByteLen (xs ++ ys) = listByteLen xs + listByteLen ys := by
  simp [listByteLen]

theorem charUtf8Len_pos (c : Char) : 0 < charUtf8Len c := by
  unfold charUtf8Len
  split <;> simp_all
  split <;> simp_all
  split <;> simp_all

theorem byteLen_lt_of_isUnder {a b : String} (h : isUnder b a = true) :
    byteLen a < byteLen b := by
  unfold isUnder at h
  rw [List.isPrefixOf_iff_prefix] at h
  rcases h with ⟨t, ht⟩
  have : byteLen b = listByteLen ((a.toList ++ ['/']) ++ t) := by
    unfold byteLen; rw [ht]
  rw [this, listByteLen_append, listByteLen_append]
  have h1 : 0 < listByteLen ['/'] := charUtf8Len_pos '/'
  unfold byteLen
  omega

theorem byteLen_le_of_pathLe {a b : String} (h : pathLe a b) :
    byteLen a ≤ byteLen b := by
  rcases h with h | ⟨h, _⟩
  · exact le_of_lt h
  · exact le_of_eq h

theorem lookupEntry_mem : ∀ {es : List (String × FKind)} {p : String} {k : FKind},
    lookupEntry es p = some k → (p, k) ∈ es := by
  intro es
  induction es with
  | nil => intro p k h; simp [lookupEntry] at h
  | cons e es ih =>
    intro p k h
    by_cases he : e.1 = p
    · simp only [lookupEntry, if_pos he] at h
      cases h
      subst he
      exact List.mem_cons_self _ _
    · simp only [lookupEntry, if_neg he] at h
      exact List.mem_cons_of_mem _ (ih h)

theorem sortPaths_perm_eq {l₁ l₂ : List String} (h : l₁.Perm l₂) :
    sortPaths l₁ = sortPaths l₂ := by
  apply List.eq_of_perm_of_sorted (r := pathLe)
  · exact (List.perm_insertionSort _ _).trans (h.trans (List.perm_insertionSort _ _).symm)
  · exact List.sorted_insertionSort _ _
  · exact List.sorted_insertionSort _ _

theorem fdLoop_invariant (fs : FSys) :
    ∀ (todo kept keptDirs : List String),
    todo.Sorted pathLe →
    (∀ a ∈ kept, ∀ q ∈ todo, byteLen a ≤ byteLen q) →
    (∀ d ∈ keptDirs, d ∈ kept ∧ fs.lookup d = some FKind.dir) →
    (∀ a ∈ kept, fs.lookup a = some FKind.dir → a ∈ keptDirs) →
    (∀ a ∈ kept, ∀ b ∈ kept, isUnder b a = true → fs.lookup a ≠ some FKind.dir) →
    (∀ a ∈ fdLoop fs todo kept keptDirs, ∀ b ∈ fdLoop fs todo kept keptDirs,
        isUnder b a = true → fs.lookup a ≠ some FKind.dir)
    ∧ (∀ x ∈ fdLoop fs todo kept keptDirs, x ∈ kept ∨ x ∈ todo) := by
  intro todo
  induction todo with
  | nil =>
    intro kept keptDirs _ _ _ _ hpair
    refine ⟨?_, ?_⟩
    · intro a ha b hb
      exact hpair a ha b hb
    · intro x hx
      exact Or.inl hx
  | cons p rest ih =>
    intro kept keptDirs hsorted hbound hkd1 hkd2 hpair
    rw [List.sorted_cons] at hsorted
    obtain ⟨hple, hsorted'⟩ := hsorted
    have hbound' : ∀ a ∈ kept, ∀ q ∈ rest, byteLen a ≤ byteLen q := by
      intro a ha q hq
      exact hbound a ha q (List.mem_cons_of_mem _ hq)
    by_cases hemp : p = ""
    · rw [show fdLoop fs (p :: rest) kept keptDirs = fdLoop fs rest kept keptDirs by
        simp [fdLoop, hemp]]
      obtain ⟨r1, r2⟩ := ih kept keptDirs hsorted' hbound' hkd1 hkd2 hpair
      refine ⟨r1, ?_⟩
      intro x hx
      rcases r2 x hx with h | h
      · exact Or.inl h
      · exact Or.inr (List.mem_cons_of_mem _ h)
    · by_cases hdesc : keptDirs.any (fun dir => isUnder p dir) = true
      · rw [show fdLoop fs (p :: rest) kept keptDirs = fdLoop fs rest kept keptDirs by
          simp only [fdLoop, if_neg hemp]; rw [if_pos hdesc]]
        obtain ⟨r1, r2⟩ := ih kept keptDirs hsorted' hbound' hkd1 hkd2 hpair
        refine ⟨r1, ?_⟩
        intro x hx
        rcases r2 x hx with h | h
        · exact Or.inl h
        · exact Or.inr (List.mem_cons_of_mem _ h)
      · have hnodesc : ∀ d ∈ keptDirs, isUnder p d = false := by
          intro d hd
          cases hiu : isUnder p d
          · rfl
          · exact absurd (List.any_eq_true.mpr ⟨d, hd, hiu⟩) hdesc
        have hboundNew : ∀ a ∈ kept ++ [p], ∀ q ∈ rest, byteLen a ≤ byteLen q := by
          intro a ha q hq
          rcases List.mem_append.mp ha with ha | ha
          · exact hbound' a ha q hq
          · rw [List.mem_singleton.mp ha]
            exact byteLen_le_of_pathLe (hple q hq)
        have hpairNew : ∀ a ∈ kept ++ [p], ∀ b ∈ kept ++ [p],
            isUnder b a = true → fs.lookup a ≠ some FKind.dir := by
          intro a ha b hb hub
          rcases List.mem_append.mp ha with ha | ha
          · rcases List.mem_append.mp hb with hb | hb
            · exact hpair a ha b hb hub
            · rw [List.mem_singleton.mp hb] at hub
              intro hdir
              have := hnodesc a (hkd2 a ha hdir)
              rw [this] at hub
              exact Bool.false_ne_true hub
          · rw [List.mem_singleton.mp ha] at hub ⊢
            rcases List.mem_append.mp hb with hb | hb
            · intro _
              have h1 : byteLen p < byteLen b := byteLen_lt_of_isUnder hub
              have h2 : byteLen b ≤ byteLen p :=
                hbound b hb p (List.mem_cons_self _ _)
              omega
            · rw [List.mem_singleton.mp hb] at hub
              intro _
              exact absurd rfl (ne_of_lt (byteLen_lt_of_isUnder hub)).symm
        by_cases hdir : fs.lookup p = some FKind.dir
        · rw [show fdLoop fs (p :: rest) kept keptDirs =
              fdLoop fs rest (kept ++ [p]) (keptDirs ++ [p]) by
            simp only [fdLoop, if_neg hemp]
            rw [if_neg hdesc, if_pos hdir]]
          have hkd1New : ∀ d ∈ keptDirs ++ [p],
              d ∈ kept ++ [p] ∧ fs.lookup d = some FKind.dir := by
            intro d hd
            rcases List.mem_append.mp hd with hd | hd
            · obtain ⟨h1, h2⟩ := hkd1 d hd
              exact ⟨List.mem_append.mpr (Or.inl h1), h2⟩
            · rw [List.mem_singleton.mp hd]
              exact ⟨List.mem_append.mpr (Or.inr (List.mem_singleton.mpr rfl)), hdir⟩
          have hkd2New : ∀ a ∈ kept ++ [p],
              fs.lookup a = some FKind.dir → a ∈ keptDirs ++ [p] := by
            intro a ha hda
            rcases List.mem_append.mp ha with ha | ha
            · exact List.mem_append.mpr (Or.inl (hkd2 a ha hda))
            · exact List.mem_append.mpr (Or.inr ha)
          obtain ⟨r1, r2⟩ := ih (kept ++ [p]) (keptDirs ++ [p]) hsorted' hboundNew
            hkd1New hkd2New hpairNew
          refine ⟨r1, ?_⟩
          intro x hx
          rcases r2 x hx with h | h
          · rcases List.mem_append.mp h with h | h
            · exact Or.inl h
            · exact Or.inr (List.mem_singleton.mp h ▸ List.mem_cons_self _ _)
          · exact Or.inr (List.mem_cons_of_mem _ h)
        · rw [show fdLoop fs (p :: rest) kept keptDirs =
              fdLoop fs rest (kept ++ [p]) keptDirs by
            simp only [fdLoop, if_neg hemp]
            rw [if_neg hdesc, if_neg hdir]]
          have hkd1New : ∀ d ∈ keptDirs, d ∈ kept ++ [p] ∧ fs.lookup d = some FKind.dir := by
            intro d hd
            obtain ⟨h1, h2⟩ := hkd1 d hd
            exact ⟨List.mem_append.mpr (Or.inl h1), h2⟩
          have hkd2New : ∀ a ∈ kept ++ [p],
              fs.lookup a = some FKind.dir → a ∈ keptDirs := by
            intro a ha hda
            rcases List.mem_append.mp ha with ha | ha
            · exact hkd2 a ha hda
            · rw [List.mem_singleton.mp ha] at hda
              exact absurd hda hdir
          obtain ⟨r1, r2⟩ := ih (kept ++ [p]) keptDirs hsorted' hboundNew
            hkd1New hkd2New hpairNew
          refine ⟨r1, ?_⟩
          intro x hx
          rcases r2 x hx with h | h
          · rcases List.mem_append.mp h with h | h
            · exact Or.inl h
            · exact Or.inr (List.mem_singleton.mp h ▸ List.mem_cons_self _ _)
          · exact Or.inr (List.mem_cons_of_mem _ h)

theorem filterDescendants_no_dir_ancestor (fs : FSys) (ms : List String) :
    ∀ a ∈ filterDescendants fs ms, ∀ b ∈ filterDescendants fs ms,
      isUnder b a = true → fs.lookup a ≠ some FKind.dir := by
  unfold filterDescendants
  exact (fdLoop_invariant fs (sortPaths (ms.map normalizeRelPath)) [] []
    (List.sorted_insertionSort _ _)
    (by intro a ha; exact absurd ha (List.not_mem_nil _))
    (by intro d hd; exact absurd hd (List.not_mem_nil _))
    (by intro a ha; exact absurd ha (List.not_mem_nil _))
    (by intro a ha; exact absurd ha (List.not_mem_nil _))).1

theorem filterDescendants_subset (fs : FSys) (ms : List String) :
    ∀ x ∈ filterDescendants fs ms, x ∈ ms.map normalizeRelPath := by
  intro x hx
  unfold filterDescendants at hx
  rcases (fdLoop_invariant fs (sortPaths (ms.map normalizeRelPath)) [] []
    (List.sorted_insertionSort _ _)
    (by intro a ha; exact absurd ha (List.not_mem_nil _))
    (by intro d hd; exact absurd hd (List.not_mem_nil _))
    (by intro a ha; exact absurd ha (List.not_mem_nil _))
    (by intro a ha; exact absurd ha (List.not_mem_nil _))).2 x hx with h | h
  · exact absurd h (List.not_mem_nil _)
  · exact (List.perm_insertionSort pathLe _).mem_iff.mp h

/-- C1: for every match set containing exactly the relative paths
node_modules, node_modules/a/node_modules and packages/x/node_modules,
where node_modules and packages/x/node_modules are real (non-symlink)
directories under the source root, descendant filtering produces the
plan with node_modules and packages/x/node_modules: the entry nested
under the kept directory is dropped and the unrelated nested path is
kept. -/
theorem c1_descendant_filtering (fs : FSys) (ms : List String)
    (h1 : fs.lookup "node_modules" = some FKind.dir)
    (h2 : fs.lookup "packages/x/node_modules" = some FKind.dir)
    (hperm : ms.Perm ["node_modules", "node_modules/a/node_modules",
      "packages/x/node_modules"]) :
    filterDescendants fs ms = ["node_modules", "packages/x/node_modules"] := by
  unfold filterDescendants
  have hs : sortPaths (ms.map normalizeRelPath) =
      ["node_modules", "packages/x/node_modules", "node_modules/a/node_modules"] := by
    rw [sortPaths_perm_eq (hperm.map normalizeRelPath)]
    decide
  rw [hs]
  have i1 : isUnder "packages/x/node_modules" "node_modules" = false := by decide
  have i2 : isUnder "node_modules/a/node_modules" "node_modules" = true := by decide
  simp [fdLoop, h1, h2, i1, i2]

def c1fs : FSys :=
  ⟨[("node_modules", FKind.dir), ("node_modules/a", FKind.dir),
    ("node_modules/a/node_modules", FKind.dir), ("packages", FKind.dir),
    ("packages/x", FKind.dir), ("packages/x/node_modules", FKind.dir)]⟩

theorem c1_descendant_filtering_witness :
    filterDescendants c1fs
      ["packages/x/node_modules", "node_modules", "node_modules/a/node_modules"] =
    ["node_modules", "packages/x/node_modules"] :=
  c1_descendant_filtering c1fs _ (by decide) (by decide) (by decide)

/-- C2: for every input match set and source root whose snapshot is
well-formed (an entry lying strictly under another existing entry forces
the ancestor entry to be a directory or a symlink) and whose matches all
exist under the root, the filtered plan never contains two entries where
one lies strictly under the other unless the ancestor entry is a
symlink. -/
theorem c2_plan_no_strict_ancestor (fs : FSys) (ms : List String)
    (hwf : ∀ e ∈ fs.entries, ∀ f ∈ fs.entries, isUnder f.1 e.1 = true →
        e.2 = FKind.dir ∨ e.2 = FKind.symlink)
    (hex : ∀ p ∈ ms, (fs.lookup (normalizeRelPath p)).isSome) :
    ∀ a ∈ filterDescendants fs ms, ∀ b ∈ filterDescendants fs ms,
      isUnder b a = true → fs.lookup a = some FKind.symlink := by
  intro a ha b hb hu
  have hnd := filterDescendants_no_dir_ancestor fs ms a ha b hb hu
  have hsa : (fs.lookup a).isSome := by
    obtain ⟨x, hx, he⟩ := List.mem_map.mp (filterDescendants_subset fs ms a ha)
    rw [← he]
    exact hex x hx
  have hsb : (fs.lookup b).isSome := by
    obtain ⟨x, hx, he⟩ := List.mem_map.mp (filterDescendants_subset fs ms b hb)
    rw [← he]
    exact hex x hx
  obtain ⟨k, hk⟩ := Option.isSome_iff_exists.mp hsa
  obtain ⟨k2, hk2⟩ := Option.isSome_iff_exists.mp hsb
  have hma : (a, k) ∈ fs.entries := lookupEntry_mem hk
  have hmb : (b, k2) ∈ fs.entries := lookupEntry_mem hk2
  rcases hwf (a, k) hma (b, k2) hmb hu with hd | hsym
  · have hd2 : k = FKind.dir := hd
    exact absurd (by rw [hk, hd2] : fs.lookup a = some FKind.dir) hnd
  · have hs2 : k = FKind.symlink := hsym
    rw [hk, hs2]

def c2fs : FSys := ⟨[("a", FKind.symlink), ("a/b", FKind.file)]⟩

theorem c2_plan_no_strict_ancestor_witness :
    "a" ∈ filterDescendants c2fs ["a", "a/b"]
    ∧ "a/b" ∈ filterDescendants c2fs ["a", "a/b"]
    ∧ isUnder "a/b" "a" = true
    ∧ c2fs.lookup "a" = some FKind.symlink :=
  ⟨by decide, by decide, by decide,
    c2_plan_no_strict_ancestor c2fs ["a", "a/b"] (by decide) (by decide)
      "a" (by decide) "a/b" (by decide) (by decide)⟩

/-- Glob metacharacters tested by `strings.ContainsAny(pattern, "*?[]{}")`
in `findMatches`, listed by code point: star, question mark, square
brackets, curly braces. -/
def hasMeta (pat : String) : Bool :=
  pat.toList.any (fun c => [42, 63, 91, 93, 123, 125].contains c.toNat)

/-- Modelled from the spec: within-segment matching of the external
doublestar library (not part of this repository). A star matches any run
of characters inside a segment, a question mark exactly one character,
any other character matches itself; character classes and brace
alternation are outside the model, no claim exercises them. -/
def matchChars : List Char → List Char → Bool
  | [], xs => xs.isEmpty
  | '*' :: ps, xs => (List.range (xs.length + 1)).any (fun n => matchChars ps (xs.drop n))
  | '?' :: ps, xs =>
    match xs with
    | [] => false
    | _ :: t => matchChars ps t
  | p :: ps, xs =>
    match xs with
    | [] => false
    | x :: t => p = x && matchChars ps t

/-- Modelled from the spec: doublestar matching over slash-separated
segments; a double-star segment matches zero or more whole path
segments, any other segment matches within-segment. -/
def matchSegs : List String → List String → Bool
  | [], xs => xs.isEmpty
  | p :: ps, xs =>
    if p = "**" then (List.range (xs.length + 1)).any (fun n => matchSegs ps (xs.drop n))
    else
      match xs with
      | [] => false
      | x :: t => matchChars p.toList x.toList && matchSegs ps t

def globMatch (pat p : String) : Bool :=
  matchSegs (splitSlash pat) (splitSlash p)

/-- Transcription of `findMatches` in copy.go: a pattern without glob
metacharacters is a literal path decided by one `os.Lstat`; a glob
pattern is matched against every path the snapshot walk can see
(`doublestar.GlobWalk` over `os.DirFS`, which never descends into
symlinks), each hit normalized and empty results dropped. -/
def findMatches (fs : FSys) (pat : String) : List String :=
  if hasMeta pat = false then
    let rel := normalizeRelPath pat
    if rel = "" then []
    else if (fs.lookup rel).isSome then [rel] else []
  else
    (fs.entries.map Prod.fst).filterMap (fun p =>
      if globMatch pat p = true then
        if normalizeRelPath p = "" then none else some (normalizeRelPath p)
      else none)

/-- Go `strings.HasPrefix(p, "!")`. -/
def startsWithBang (p : String) : Bool :=
  match p.toList with
  | c :: _ => c = '!'
  | [] => false

/-- Go `strings.TrimPrefix(p, "!")` under the bang test: drop the bang. -/
def dropBang (p : String) : String :=
  String.mk (p.toList.drop 1)

/-- Insertion of one found path into the Go match map: keys are unique
and the include loop skips empty strings. -/
def insertMatch (acc : List String) (f : String) : List String :=
  if f = "" ∨ f ∈ acc then acc else acc ++ [f]

/-- The include/exclude accumulation of `CopyFiles`: split the pattern
list on the bang marker, union all include matches into the candidate
set, then delete every path matched by any exclude pattern. -/
def buildMatches (fs : FSys) (patterns : List String) : List String :=
  let includes := patterns.filter (fun p => startsWithBang p = false)
  let excludes := (patterns.filter (fun p => startsWithBang p = true)).map dropBang
  let m := includes.foldl (fun acc pat => (findMatches fs pat).foldl insertMatch acc) []
  excludes.foldl (fun acc pat => acc.filter (fun f => decide (f ∉ findMatches fs pat))) m

/-- The full match-resolution pipeline of `CopyFiles` before the copy
loop: accumulate matches, drop directory descendants, sort
lexicographically (`sort.Strings`). -/
def copyPlan (fs : FSys) (patterns : List String) : List String :=
  sortLex (filterDescendants fs (buildMatches fs patterns))

theorem mem_insertMatch {acc : List String} {a x : String} :
    x ∈ insertMatch acc a ↔ x ∈ acc ∨ (a ≠ "" ∧ x = a) := by
  unfold insertMatch
  by_cases h : a = "" ∨ a ∈ acc
  · rw [if_pos h]
    constructor
    · exact Or.inl
    · intro hx
      rcases hx with hx | ⟨hne, rfl⟩
      · exact hx
      · rcases h with h | h
        · exact absurd h hne
        · exact h
  · rw [if_neg h]
    push_neg at h
    simp only [List.mem_append, List.mem_singleton]
    constructor
    · intro hx
      rcases hx with hx | rfl
      · exact Or.inl hx
      · exact Or.inr ⟨h.1, rfl⟩
    · intro hx
      rcases hx with hx | ⟨_, rfl⟩
      · exact Or.inl hx
      · exact Or.inr rfl

theorem mem_foldl_insertMatch (l : List String) :
    ∀ (acc : List String) (x : String),
    (x ∈ l.foldl insertMatch acc ↔ x ∈ acc ∨ (x ≠ "" ∧ x ∈ l)) := by
  induction l with
  | nil => intro acc x; simp
  | cons a l ih =>
    intro acc x
    rw [List.foldl_cons, ih, mem_insertMatch]
    constructor
    · intro hx
      rcases hx with (hx | ⟨hne, rfl⟩) | ⟨hne, hxl⟩
      · exact Or.inl hx
      · exact Or.inr ⟨hne, List.mem_cons_self _ _⟩
      · exact Or.inr ⟨hne, List.mem_cons_of_mem _ hxl⟩
    · intro hx
      rcases hx with hx | ⟨hne, hxl⟩
      · exact Or.inl (Or.inl hx)
      · rcases List.mem_cons.mp hxl with rfl | hxl
        · exact Or.inl (Or.inr ⟨hne, rfl⟩)
        · exact Or.inr ⟨hne, hxl⟩

theorem mem_foldl_includes (fs : FSys) (incl : List String) :
    ∀ (acc : List String) (x : String),
    (x ∈ incl.foldl (fun acc pat => (findMatches fs pat).foldl insertMatch acc) acc ↔
      x ∈ acc ∨ (x ≠ "" ∧ ∃ pat ∈ incl, x ∈ findMatches fs pat)) := by
  induction incl with
  | nil => intro acc x; simp
  | cons a incl ih =>
    intro acc x
    rw [List.foldl_cons, ih, mem_foldl_insertMatch]
    constructor
    · intro hx
      rcases hx with (hx | ⟨hne, hxa⟩) | ⟨hne, pat, hpat, hxp⟩
      · exact Or.inl hx
      · exact Or.inr ⟨hne, a, List.mem_cons_self _ _, hxa⟩
      · exact Or.inr ⟨hne, pat, List.mem_cons_of_mem _ hpat, hxp⟩
    · intro hx
      rcases hx with hx | ⟨hne, pat, hpat, hxp⟩
      · exact Or.inl (Or.inl hx)
      · rcases List.mem_cons.mp hpat with rfl | hpat
        · exact Or.inl (Or.inr ⟨hne, hxp⟩)
        · exact Or.inr ⟨hne, pat, hpat, hxp⟩

theorem mem_foldl_excludes (fs : FSys) (excl : List String) :
    ∀ (m : List String) (x : String),
    (x ∈ excl.foldl (fun acc pat => acc.filter (fun f => decide (f ∉ findMatches fs pat))) m ↔
      x ∈ m ∧ ∀ pat ∈ excl, x ∉ findMatches fs pat) := by
  induction excl with
  | nil => intro m x; simp
  | cons a excl ih =>
    intro m x
    rw [List.foldl_cons, ih]
    rw [List.mem_filter]
    constructor
    · intro ⟨⟨hm, hdec⟩, hall⟩
      refine ⟨hm, ?_⟩
      intro pat hpat
      rcases List.mem_cons.mp hpat with rfl | hpat
      · exact of_decide_eq_true hdec
      · exact hall pat hpat
    · intro ⟨hm, hall⟩
      refine ⟨⟨hm, decide_eq_true ?_⟩, ?_⟩
      · exact hall a (List.mem_cons_self _ _)
      · intro pat hpat
        exact hall pat (List.mem_cons_of_mem _ hpat)

theorem mem_buildMatches (fs : FSys) (patterns : List String) (x : String) :
    x ∈ buildMatches fs patterns ↔
      (x ≠ "" ∧ ∃ pat ∈ patterns, startsWithBang pat = false ∧ x ∈ findMatches fs pat)
      ∧ ∀ pat ∈ patterns, startsWithBang pat = true → x ∉ findMatches fs (dropBang pat) := by
  unfold buildMatches
  rw [mem_foldl_excludes, mem_foldl_includes]
  constructor
  · intro ⟨hin, hex⟩
    rcases hin with hin | ⟨hne, pat, hpat, hxp⟩
    · exact absurd hin (List.not_mem_nil _)
    · obtain ⟨hmem, hbang⟩ := List.mem_filter.mp hpat
      refine ⟨⟨hne, pat, hmem, by simpa using hbang, hxp⟩, ?_⟩
      intro q hq hbq
      exact hex (dropBang q) (List.mem_map.mpr ⟨q, List.mem_filter.mpr ⟨hq, by simpa using hbq⟩, rfl⟩)
  · intro ⟨⟨hne, pat, hpat, hbang, hxp⟩, hex⟩
    refine ⟨Or.inr ⟨hne, pat, List.mem_filter.mpr ⟨hpat, by simpa using hbang⟩, hxp⟩, ?_⟩
    intro q hq
    obtain ⟨q0, hq0, rfl⟩ := List.mem_map.mp hq
    obtain ⟨hq0m, hq0b⟩ := List.mem_filter.mp hq0
    exact hex q0 hq0m (by simpa using hq0b)

def pemFS : FSys := ⟨[("a.pem", FKind.file), ("important.pem", FKind.file)]⟩

/-- C3: the candidate match set is independent of where exclusion
patterns appear in the pattern list (membership is invariant under any
permutation of the list, so exclusions always apply after all
inclusions); in particular the list with a double-star pem glob and a
bang-exclusion of important.pem, against a source holding a.pem and
important.pem, yields the plan with only a.pem in either order. -/
theorem c3_exclude_position_independent :
    (∀ (fs : FSys) (l₁ l₂ : List String), l₁.Perm l₂ →
      ∀ x, x ∈ buildMatches fs l₁ ↔ x ∈ buildMatches fs l₂)
    ∧ copyPlan pemFS ["**/*.pem", "!important.pem"] = ["a.pem"]
    ∧ copyPlan pemFS ["!important.pem", "**/*.pem"] = ["a.pem"] := by
  refine ⟨?_, by decide, by decide⟩
  intro fs l₁ l₂ hperm x
  rw [mem_buildMatches, mem_buildMatches]
  constructor
  · intro ⟨⟨hne, pat, hpat, hb, hxp⟩, hex⟩
    exact ⟨⟨hne, pat, hperm.mem_iff.mp hpat, hb, hxp⟩,
      fun q hq => hex q (hperm.mem_iff.mpr hq)⟩
  · intro ⟨⟨hne, pat, hpat, hb, hxp⟩, hex⟩
    exact ⟨⟨hne, pat, hperm.mem_iff.mpr hpat, hb, hxp⟩,
      fun q hq => hex q (hperm.mem_iff.mp hq)⟩

theorem c3_exclude_position_independent_witness :
    "a.pem" ∈ buildMatches pemFS ["**/*.pem", "!important.pem"] ↔
      "a.pem" ∈ buildMatches pemFS ["!important.pem", "**/*.pem"] :=
  c3_exclude_position_independent.1 pemFS
    ["**/*.pem", "!important.pem"] ["!important.pem", "**/*.pem"]
    (by decide) "a.pem"

def envFS : FSys := ⟨[(".env", FKind.file), (".env.local", FKind.file)]⟩

def envOnlyLocalFS : FSys := ⟨[(".env.local", FKind.file)]⟩

/-- C8: a pattern without glob metacharacters is treated as a literal
path: any match it produces is exactly the normalized pattern and that
path exists under the source root; concretely, against a source holding
a dotenv file and a dotenv dot local file the dotenv pattern matches
only the dotenv file, and against a source holding only the dot local
variant it matches nothing. -/
theorem c8_literal_pattern (fs : FSys) (pat m : String)
    (hmeta : hasMeta pat = false) :
    (m ∈ findMatches fs pat → m = normalizeRelPath pat ∧ (fs.lookup m).isSome)
    ∧ findMatches envFS ".env" = [".env"]
    ∧ (".env.local" ∈ findMatches envFS ".env" → False)
    ∧ findMatches envOnlyLocalFS ".env" = [] := by
  refine ⟨?_, by decide, by decide, by decide⟩
  intro hm
  unfold findMatches at hm
  rw [if_pos hmeta] at hm
  by_cases h0 : normalizeRelPath pat = ""
  · rw [if_pos h0] at hm
    exact absurd hm (List.not_mem_nil _)
  · rw [if_neg h0] at hm
    by_cases h1 : (fs.lookup (normalizeRelPath pat)).isSome
    · rw [if_pos h1] at hm
      rw [List.mem_singleton.mp hm]
      exact ⟨rfl, h1⟩
    · rw [if_neg h1] at hm
      exact absurd hm (List.not_mem_nil _)

theorem c8_literal_pattern_witness :
    ".env" = normalizeRelPath ".env" ∧ (envFS.lookup ".env").isSome :=
  (c8_literal_pattern envFS ".env" ".env" (by decide)).1 (by decide)

/-- What one `copyPath` call did: nothing (skip), a fresh file or symlink
copy, a fresh recursive directory copy, or a merge into an existing
directory. The Go function returns `(copied, err)`; `skipped` is
`copied = false`, everything else is `copied = true`. -/
inductive CopyAction
  | skipped
  | copiedFile
  | copiedDir
  | mergedDir
deriving DecidableEq

/-- Transcription of the decision logic of `copyPath` in copy.go over
the `os.Lstat` results of source and destination, plus the outcome of
the parent-directory preparation (`os.MkdirAll` with the `os.Stat`
fallback for symlinked parents). Error strings are the Go ones. -/
def copyPath (srcK destK : Option FKind) (parentOk : Bool) : Except String CopyAction :=
  match srcK with
  | none => Except.error "lstat source"
  | some sk =>
    if sk = FKind.dir then
      if destK.isSome ∧ destK ≠ some FKind.dir then
        Except.error "destination exists and is not a directory"
      else if parentOk = false then Except.ok CopyAction.skipped
      else if destK = some FKind.dir then Except.ok CopyAction.mergedDir
      else Except.ok CopyAction.copiedDir
    else
      if destK = some FKind.dir then
        Except.error "destination exists and is a directory"
      else if destK.isSome then Except.ok CopyAction.skipped
      else if parentOk = false then Except.ok CopyAction.skipped
      else Except.ok CopyAction.copiedFile

/-- Proper ancestor prefixes of a path, shortest first: the chain of
parent directories `os.MkdirAll` has to provide. -/
def ancestorsOf (p : String) : List String :=
  (List.range ((splitSlash p).length - 1)).map
    (fun n => joinSegs ((splitSlash p).take (n + 1)))

/-- Add an entry to the destination snapshot unless the path already
exists: no copy step ever overwrites an existing destination entry
(no-clobber policy). -/
def addIfAbsent (es : List (String × FKind)) (p : String) (k : FKind) :
    List (String × FKind) :=
  if (lookupEntry es p).isSome then es else es ++ [(p, k)]

def addFold {α : Type} (kf : α → String) (vf : α → FKind)
    (l : List α) (es : List (String × FKind)) : List (String × FKind) :=
  l.foldl (fun es a => addIfAbsent es (kf a) (vf a)) es

/-- Usability of the destination parent chain for `p`: no proper
ancestor exists as a regular file, and every symlink ancestor resolves
to a directory according to the fixed oracle `linkOk` (the `os.Stat`
fallback; symlink targets are outside the snapshot model). -/
def parentsOk (linkOk : String → Bool) (d : FSys) (p : String) : Bool :=
  (ancestorsOf p).all (fun a =>
    match lookupEntry d.entries a with
    | some FKind.file => false
    | some FKind.symlink => linkOk a
    | _ => true)

/-- Directory-creation effect of `os.MkdirAll`: missing proper ancestors
become directories. -/
def createParents (d : FSys) (p : String) : FSys :=
  ⟨addFold (fun a => a) (fun _ => FKind.dir) (ancestorsOf p) d.entries⟩

/-- Modelled from the spec: effect of the external `cp -R -P -p` calls
and of the no-clobber merge (`cp -R -P -p -n`, the policy the spec
adopts) for a directory source: the destination gains the source path
and every snapshot entry strictly below it that it does not already
have; symlinks are recreated as symlinks, nothing existing is
overwritten. -/
def applyDirCopy (src d : FSys) (p : String) : FSys :=
  ⟨addFold Prod.fst Prod.snd (src.entries.filter (fun e => isUnder e.1 p))
      (addIfAbsent d.entries p FKind.dir)⟩

/-- One iteration of the copy loop of `CopyFiles` for plan entry `p`:
the `copyPath` decision together with its effect on the destination
snapshot, error text wrapped as in `CopyFiles`. -/
def runStep (linkOk : String → Bool) (src d : FSys) (p : String) :
    Except String (FSys × CopyAction) :=
  match src.lookup p with
  | none => Except.error ("failed to copy " ++ p ++ ": lstat source")
  | some sk =>
    match copyPath (some sk) (d.lookup p) (parentsOk linkOk d p) with
    | Except.error e => Except.error ("failed to copy " ++ p ++ ": " ++ e)
    | Except.ok CopyAction.skipped => Except.ok (d, CopyAction.skipped)
    | Except.ok CopyAction.copiedFile =>
      Except.ok (⟨addIfAbsent (createParents d p).entries p sk⟩, CopyAction.copiedFile)
    | Except.ok a => Except.ok (applyDirCopy src (createParents d p) p, a)

/-- Sequential execution of the plan, stopping at the first error. -/
def runCopy (linkOk : String → Bool) (src : FSys) :
    List String → FSys → Except String FSys
  | [], d => Except.ok d
  | p :: rest, d =>
    match runStep linkOk src d p with
    | Except.error e => Except.error e
    | Except.ok (d2, _) => runCopy linkOk src rest d2

/-- Transcription of `CopyFiles`: an empty pattern list is a no-op,
otherwise resolve the plan and copy each entry in order. -/
def CopyFiles (linkOk : String → Bool) (src : FSys) (patterns : List String)
    (dest : FSys) : Except String FSys :=
  if patterns = [] then Except.ok dest
  else runCopy linkOk src (copyPlan src patterns) dest

theorem lookupEntry_append_cases {es1 es2 : List (String × FKind)} {q : String} {k : FKind}
    (h : lookupEntry (es1 ++ es2) q = some k) :
    lookupEntry es1 q = some k ∨ lookupEntry es2 q = some k := by
  induction es1 with
  | nil => exact Or.inr h
  | cons e es ih =>
    by_cases he : e.1 = q
    · rw [List.cons_append] at h
      simp only [lookupEntry, if_pos he] at h ⊢
      exact Or.inl h
    · rw [List.cons_append] at h
      simp only [lookupEntry, if_neg he] at h ⊢
      exact ih h

theorem lookupEntry_append_stable {es1 es2 : List (String × FKind)} {q : String} {k : FKind}
    (h : lookupEntry es1 q = some k) :
    lookupEntry (es1 ++ es2) q = some k := by
  induction es1 with
  | nil => simp [lookupEntry] at h
  | cons e es ih =>
    by_cases he : e.1 = q
    · simp only [lookupEntry, if_pos he] at h
      rw [List.cons_append]
      simp only [lookupEntry, if_pos he]
      exact h
    · simp only [lookupEntry, if_neg he] at h
      rw [List.cons_append]
      simp only [lookupEntry, if_neg he]
      exact ih h

theorem addIfAbsent_stable {es : List (String × FKind)} {q p : String} {k k2 : FKind}
    (h : lookupEntry es q = some k) :
    lookupEntry (addIfAbsent es p k2) q = some k := by
  unfold addIfAbsent
  by_cases hp : (lookupEntry es p).isSome
  · rw [if_pos hp]; exact h
  · rw [if_neg hp]
    exact lookupEntry_append_stable h

theorem lookupEntry_none_append {es es2 : List (String × FKind)} {q : String}
    (h : lookupEntry es q = none) :
    lookupEntry (es ++ es2) q = lookupEntry es2 q := by
  induction es with
  | nil => rfl
  | cons e es ih =>
    by_cases he : e.1 = q
    · simp only [lookupEntry, if_pos he] at h
      exact absurd h (by simp)
    · simp only [lookupEntry, if_neg he] at h
      rw [List.cons_append]
      simp only [lookupEntry, if_neg he]
      exact ih h

theorem addIfAbsent_self_isSome (es : List (String × FKind)) (p : String) (k : FKind) :
    (lookupEntry (addIfAbsent es p k) p).isSome := by
  unfold addIfAbsent
  by_cases hp : (lookupEntry es p).isSome
  · rw [if_pos hp]; exact hp
  · rw [if_neg hp]
    rw [lookupEntry_none_append (Option.not_isSome_iff_eq_none.mp hp)]
    simp [lookupEntry]

theorem addIfAbsent_cases {es : List (String × FKind)} {q p : String} {k k2 : FKind}
    (h : lookupEntry (addIfAbsent es p k2) q = some k) :
    lookupEntry es q = some k ∨ (q = p ∧ k = k2) := by
  unfold addIfAbsent at h
  by_cases hp : (lookupEntry es p).isSome
  · rw [if_pos hp] at h; exact Or.inl h
  · rw [if_neg hp] at h
    rcases lookupEntry_append_cases h with h1 | h1
    · exact Or.inl h1
    · by_cases he : p = q
      · subst he
        simp only [lookupEntry, if_pos rfl] at h1
        cases h1
        exact Or.inr ⟨rfl, rfl⟩
      · simp only [lookupEntry, if_neg he] at h1
        exact absurd h1 (by simp)

theorem addIfAbsent_noop {es : List (String × FKind)} {p : String} {k : FKind}
    (h : (lookupEntry es p).isSome) : addIfAbsent es p k = es := by
  unfold addIfAbsent
  rw [if_pos h]

theorem addFold_stable {α : Type} (kf : α → String) (vf : α → FKind) :
    ∀ (l : List α) {es : List (String × FKind)} {q : String} {k : FKind},
    lookupEntry es q = some k → lookupEntry (addFold kf vf l es) q = some k := by
  intro l
  induction l with
  | nil => intro es q k h; exact h
  | cons a l ih =>
    intro es q k h
    rw [addFold, List.foldl_cons]
    exact ih (addIfAbsent_stable h)

theorem addFold_isSome_stable {α : Type} (kf : α → String) (vf : α → FKind)
    (l : List α) {es : List (String × FKind)} {q : String}
    (h : (lookupEntry es q).isSome) :
    (lookupEntry (addFold kf vf l es) q).isSome := by
  obtain ⟨k, hk⟩ := Option.isSome_iff_exists.mp h
  rw [addFold_stable kf vf l hk]
  rfl

theorem addFold_cases {α : Type} (kf : α → String) (vf : α → FKind) :
    ∀ (l : List α) {es : List (String × FKind)} {q : String} {k : FKind},
    lookupEntry (addFold kf vf l es) q = some k →
    lookupEntry es q = some k ∨ ∃ a ∈ l, kf a = q ∧ vf a = k := by
  intro l
  induction l with
  | nil => intro es q k h; exact Or.inl h
  | cons a l ih =>
    intro es q k h
    rw [addFold, List.foldl_cons] at h
    rcases ih h with h1 | ⟨b, hb, hkb, hvb⟩
    · rcases addIfAbsent_cases h1 with h2 | ⟨rfl, rfl⟩
      · exact Or.inl h2
      · exact Or.inr ⟨a, List.mem_cons_self _ _, rfl, rfl⟩
    · exact Or.inr ⟨b, List.mem_cons_of_mem _ hb, hkb, hvb⟩

theorem addFold_isSome_of_mem {α : Type} (kf : α → String) (vf : α → FKind) :
    ∀ (l : List α) {a : α} (es : List (String × FKind)),
    a ∈ l → (lookupEntry (addFold kf vf l es) (kf a)).isSome := by
  intro l
  induction l with
  | nil => intro a es h; exact absurd h (List.not_mem_nil _)
  | cons b l ih =>
    intro a es h
    rw [addFold, List.foldl_cons]
    rcases List.mem_cons.mp h with rfl | h
    · exact addFold_isSome_stable kf vf l (addIfAbsent_self_isSome _ _ _)
    · exact ih _ h

theorem addFold_noop {α : Type} (kf : α → String) (vf : α → FKind) :
    ∀ (l : List α) {es : List (String × FKind)},
    (∀ a ∈ l, (lookupEntry es (kf a)).isSome) → addFold kf vf l es = es := by
  intro l
  induction l with
  | nil => intro es _; rfl
  | cons a l ih =>
    intro es h
    rw [addFold, List.foldl_cons, addIfAbsent_noop (h a (List.mem_cons_self _ _))]
    exact ih (fun b hb => h b (List.mem_cons_of_mem _ hb))

theorem joinSegs_cons_ne {s : String} {l : List String} (h : l ≠ []) :
    joinSegs (s :: l) = s ++ "/" ++ joinSegs l := by
  cases l with
  | nil => exact absurd rfl h
  | cons t l => rfl

theorem splitSlashAux_ne_nil : ∀ (cs acc : List Char), splitSlashAux cs acc ≠ [] := by
  intro cs
  induction cs with
  | nil => intro acc; simp [splitSlashAux]
  | cons c cs ih =>
    intro acc
    unfold splitSlashAux
    by_cases hc : c = '/'
    · rw [if_pos hc]; simp
    · rw [if_neg hc]; exact ih _

theorem str_data_append (a b : String) : (a ++ b).data = a.data ++ b.data := by
  cases a; cases b; rfl

theorem str_append_assoc (a b c : String) : a ++ b ++ c = a ++ (b ++ c) := by
  apply toList_injective
  simp only [String.toList, str_data_append, List.append_assoc]

theorem mk_append_mk (l1 l2 : List Char) :
    String.mk (l1 ++ l2) = String.mk l1 ++ String.mk l2 := rfl

theorem joinSegs_splitSlashAux : ∀ (cs acc : List Char),
    joinSegs (splitSlashAux cs acc) = String.mk (acc.reverse ++ cs) := by
  intro cs
  induction cs with
  | nil => intro acc; simp [splitSlashAux, joinSegs]
  | cons c cs ih =>
    intro acc
    unfold splitSlashAux
    by_cases hc : c = '/'
    · rw [if_pos hc]
      rw [joinSegs_cons_ne (splitSlashAux_ne_nil cs [])]
      rw [ih []]
      subst hc
      apply toList_injective
      simp [String.toList, str_data_append]
    · rw [if_neg hc]
      rw [ih (c :: acc)]
      apply toList_injective
      simp [String.toList]

theorem joinSegs_splitSlash (s : String) : joinSegs (splitSlash s) = s := by
  unfold splitSlash
  rw [joinSegs_splitSlashAux]
  apply toList_injective
  simp [String.toList]

theorem joinSegs_append {l1 l2 : List String} (h1 : l1 ≠ []) (h2 : l2 ≠ []) :
    joinSegs (l1 ++ l2) = joinSegs l1 ++ "/" ++ joinSegs l2 := by
  induction l1 with
  | nil => exact absurd rfl h1
  | cons s l1 ih =>
    cases l1 with
    | nil =>
      rw [List.singleton_append, joinSegs_cons_ne h2]
      rfl
    | cons t l1 =>
      rw [List.cons_append, joinSegs_cons_ne (by simp), joinSegs_cons_ne (by simp)]
      rw [ih (by simp)]
      apply toList_injective
      simp [String.toList, str_data_append]

theorem ancestorsOf_isUnder {p a : String} (h : a ∈ ancestorsOf p) :
    isUnder p a = true := by
  unfold ancestorsOf at h
  obtain ⟨n, hn, rfl⟩ := List.mem_map.mp h
  rw [List.mem_range] at hn
  have hlen : 1 ≤ (splitSlash p).length := by
    have := splitSlashAux_ne_nil p.toList []
    unfold splitSlash
    cases hsp : splitSlashAux p.toList [] with
    | nil => exact absurd hsp this
    | cons x xs => simp
  have htake : (splitSlash p).take (n + 1) ≠ [] := by
    have : ((splitSlash p).take (n + 1)).length = min (n + 1) (splitSlash p).length := by
      simp
    intro hcon
    rw [hcon] at this
    simp at this
    omega
  have hdrop : (splitSlash p).drop (n + 1) ≠ [] := by
    have : ((splitSlash p).drop (n + 1)).length = (splitSlash p).length - (n + 1) := by
      simp
    intro hcon
    rw [hcon] at this
    simp at this
    omega
  have hp : p = joinSegs ((splitSlash p).take (n + 1)) ++ "/" ++
      joinSegs ((splitSlash p).drop (n + 1)) := by
    conv_lhs => rw [← joinSegs_splitSlash p]
    rw [← joinSegs_append htake hdrop]
    rw [List.take_append_drop]
  unfold isUnder
  rw [List.isPrefixOf_iff_prefix]
  refine ⟨(joinSegs ((splitSlash p).drop (n + 1))).toList, ?_⟩
  conv_rhs => rw [hp]
  simp [String.toList, str_data_append]

theorem createParents_stable {d : FSys} {p q : String} {k : FKind}
    (h : lookupEntry d.entries q = some k) :
    lookupEntry (createParents d p).entries q = some k :=
  addFold_stable _ _ _ h

theorem createParents_cases {d : FSys} {p q : String} {k : FKind}
    (h : lookupEntry (createParents d p).entries q = some k) :
    lookupEntry d.entries q = some k ∨ (q ∈ ancestorsOf p ∧ k = FKind.dir) := by
  rcases addFold_cases _ _ _ h with h1 | ⟨a, ha, rfl, hv⟩
  · exact Or.inl h1
  · exact Or.inr ⟨ha, hv.symm⟩

theorem createParents_anc_isSome {d : FSys} {p a : String} (h : a ∈ ancestorsOf p) :
    (lookupEntry (createParents d p).entries a).isSome :=
  addFold_isSome_of_mem _ _ _ _ h

theorem createParents_noop {d : FSys} {p : String}
    (h : ∀ a ∈ ancestorsOf p, (lookupEntry d.entries a).isSome) :
    createParents d p = d := by
  unfold createParents
  rw [addFold_noop _ _ _ h]

/-- C5 counterexample: the claim says a non-directory source whose
destination exists in any form, including a directory, is skipped with
no error, but `copyPath` fails with a destination-conflict error when
the destination is a directory. -/
theorem c5_counterexample :
    copyPath (some FKind.file) (some FKind.dir) true =
      Except.error "destination exists and is a directory" := rfl

def skipSrcFS : FSys := ⟨[("a", FKind.file), ("b", FKind.file)]⟩

def skipDestFS : FSys := ⟨[("a", FKind.file)]⟩

/-- C5 as amended: for a non-directory source (file or symlink), if the
destination exists as a non-directory (file or symlink) the copier skips
the entry entirely with no error and no report, and the run continues:
in the concrete run below the first entry is skipped and the second is
still copied, the whole operation succeeding. -/
theorem c5_nondir_dest_skip :
    (∀ (sk k : FKind) (pOk : Bool), sk ≠ FKind.dir → k ≠ FKind.dir →
      copyPath (some sk) (some k) pOk = Except.ok CopyAction.skipped)
    ∧ CopyFiles (fun _ => false) skipSrcFS ["a", "b"] skipDestFS =
        Except.ok ⟨[("a", FKind.file), ("b", FKind.file)]⟩ := by
  refine ⟨?_, rfl⟩
  intro sk k pOk h1 h2
  cases sk <;> cases k <;> first
    | exact absurd rfl h1
    | exact absurd rfl h2
    | rfl

theorem c5_nondir_dest_skip_witness :
    copyPath (some FKind.symlink) (some FKind.file) false =
      Except.ok CopyAction.skipped :=
  c5_nondir_dest_skip.1 FKind.symlink FKind.file false
    (by decide) (by decide)

def conflictSrcFS : FSys := ⟨[("conflict", FKind.file)]⟩

def conflictDestFS : FSys := ⟨[("conflict", FKind.dir)]⟩

/-- C6: a non-directory source whose destination exists as a directory
yields a destination-conflict error from `copyPath` regardless of the
parent state, no copy is performed for the entry, and the overall
operation fails with an error naming the path. -/
theorem c6_conflict_error (pOk : Bool) :
    copyPath (some FKind.file) (some FKind.dir) pOk =
      Except.error "destination exists and is a directory"
    ∧ CopyFiles (fun _ => false) conflictSrcFS ["conflict"] conflictDestFS =
        Except.error "failed to copy conflict: destination exists and is a directory" :=
  ⟨rfl, rfl⟩

/-- Lookup extension between two destination snapshots: every entry of
the first is present, with the same kind, in the second. -/
def SubFS (d1 d2 : FSys) : Prop :=
  ∀ q k, d1.lookup q = some k → d2.lookup q = some k

/-- The destination only holds entries whose path has the same kind in
the source snapshot (true of every destination a run builds from an
empty directory). -/
def Agrees (src d : FSys) : Prop :=
  ∀ q k, d.lookup q = some k → src.lookup q = some k

/-- What one successful run step leaves behind for plan entry p: the
path exists at the destination and, for a directory source, so do its
whole source subtree and its parent chain. -/
def StepPost (src d : FSys) (p : String) : Prop :=
  (d.lookup p).isSome ∧
  (src.lookup p = some FKind.dir →
    (∀ e ∈ src.entries, isUnder e.1 p = true → (d.lookup e.1).isSome) ∧
    (∀ a ∈ ancestorsOf p, (d.lookup a).isSome))

theorem subFS_refl (d : FSys) : SubFS d d := fun _ _ h => h

theorem subFS_trans {d1 d2 d3 : FSys} (h1 : SubFS d1 d2) (h2 : SubFS d2 d3) :
    SubFS d1 d3 := fun q k h => h2 q k (h1 q k h)

theorem stepPost_mono {src d1 d2 : FSys} {p : String}
    (hsub : SubFS d1 d2) (h : StepPost src d1 p) : StepPost src d2 p := by
  obtain ⟨h1, h2⟩ := h
  refine ⟨?_, ?_⟩
  · obtain ⟨k, hk⟩ := Option.isSome_iff_exists.mp h1
    rw [hsub p k hk]; rfl
  · intro hdir
    obtain ⟨ha, hb⟩ := h2 hdir
    refine ⟨?_, ?_⟩
    · intro e he hu
      obtain ⟨k, hk⟩ := Option.isSome_iff_exists.mp (ha e he hu)
      rw [hsub e.1 k hk]; rfl
    · intro a haa
      obtain ⟨k, hk⟩ := Option.isSome_iff_exists.mp (hb a haa)
      rw [hsub a k hk]; rfl

theorem lookup_of_mem_keys {es : List (String × FKind)}
    (hkeys : es.Pairwise (fun e f => e.1 ≠ f.1)) :
    ∀ {e : String × FKind}, e ∈ es → lookupEntry es e.1 = some e.2 := by
  induction es with
  | nil => intro e h; exact absurd h (List.not_mem_nil _)
  | cons a es ih =>
    intro e h
    rw [List.pairwise_cons] at hkeys
    rcases List.mem_cons.mp h with rfl | h
    · simp [lookupEntry]
    · have hne : a.1 ≠ e.1 := hkeys.1 e h
      simp only [lookupEntry, if_neg hne]
      exact ih hkeys.2 h

theorem lookupEntry_isSome_of_key {es : List (String × FKind)} {q : String}
    (h : ∃ e ∈ es, e.1 = q) : (lookupEntry es q).isSome := by
  induction es with
  | nil => obtain ⟨e, he, _⟩ := h; exact absurd he (List.not_mem_nil _)
  | cons a es ih =>
    obtain ⟨e, he, hq⟩ := h
    by_cases ha : a.1 = q
    · simp [lookupEntry, if_pos ha]
    · simp only [lookupEntry, if_neg ha]
      rcases List.mem_cons.mp he with rfl | he
      · exact absurd hq ha
      · exact ih ⟨e, he, hq⟩

theorem parentsOk_of_agrees {src d : FSys} (hA : Agrees src d) {p : String}
    (hanc : ∀ a ∈ ancestorsOf p, src.lookup a = some FKind.dir)
    (linkOk : String → Bool) : parentsOk linkOk d p = true := by
  unfold parentsOk
  rw [List.all_eq_true]
  intro a ha
  rcases hk : lookupEntry d.entries a with _ | k
  · rfl
  · have := hA a k hk
    rw [hanc a ha] at this
    cases this
    rfl

theorem applyDirCopy_stable {src d : FSys} {p q : String} {k : FKind}
    (h : lookupEntry d.entries q = some k) :
    lookupEntry (applyDirCopy src d p).entries q = some k :=
  addFold_stable _ _ _ (addIfAbsent_stable h)

theorem applyDirCopy_self_isSome (src d : FSys) (p : String) :
    (lookupEntry (applyDirCopy src d p).entries p).isSome :=
  addFold_isSome_stable _ _ _ (addIfAbsent_self_isSome _ _ _)

theorem applyDirCopy_sub_isSome {src d : FSys} {p : String} {e : String × FKind}
    (he : e ∈ src.entries) (hu : isUnder e.1 p = true) :
    (lookupEntry (applyDirCopy src d p).entries e.1).isSome :=
  addFold_isSome_of_mem _ _ _ _ (List.mem_filter.mpr ⟨he, hu⟩)

theorem applyDirCopy_cases {src d : FSys} {p q : String} {k : FKind}
    (h : lookupEntry (applyDirCopy src d p).entries q = some k) :
    lookupEntry d.entries q = some k ∨ (q = p ∧ k = FKind.dir)
    ∨ ((q, k) ∈ src.entries ∧ isUnder q p = true) := by
  rcases addFold_cases _ _ _ h with h1 | ⟨e, he, hk1, hk2⟩
  · rcases addIfAbsent_cases h1 with h2 | h2
    · exact Or.inl h2
    · exact Or.inr (Or.inl h2)
  · obtain ⟨hee, heu⟩ := List.mem_filter.mp he
    refine Or.inr (Or.inr ⟨?_, ?_⟩)
    · rw [← hk1, ← hk2]
      exact hee
    · rw [← hk1]
      exact heu

theorem applyDirCopy_noop {src d : FSys} {p : String}
    (hp : (lookupEntry d.entries p).isSome)
    (hsub : ∀ e ∈ src.entries, isUnder e.1 p = true →
      (lookupEntry d.entries e.1).isSome) :
    applyDirCopy src d p = d := by
  unfold applyDirCopy
  rw [addIfAbsent_noop hp]
  rw [addFold_noop]
  intro e he
  obtain ⟨hee, heu⟩ := List.mem_filter.mp he
  exact hsub e hee heu

theorem dirCopy_props {src d : FSys} {p : String}
    (hkeys : src.entries.Pairwise (fun e f => e.1 ≠ f.1))
    (hA : Agrees src d)
    (hanc : ∀ a ∈ ancestorsOf p, src.lookup a = some FKind.dir)
    (hsk : src.lookup p = some FKind.dir) :
    Agrees src (applyDirCopy src (createParents d p) p)
    ∧ SubFS d (applyDirCopy src (createParents d p) p)
    ∧ StepPost src (applyDirCopy src (createParents d p) p) p := by
  refine ⟨?_, ?_, ?_, ?_⟩
  · intro q k hk
    rcases applyDirCopy_cases hk with h1 | ⟨rfl, rfl⟩ | ⟨hmem, _⟩
    · rcases createParents_cases h1 with h2 | ⟨hqa, rfl⟩
      · exact hA q k h2
      · exact hanc q hqa
    · exact hsk
    · exact lookup_of_mem_keys hkeys hmem
  · intro q k hk
    exact applyDirCopy_stable (createParents_stable hk)
  · exact applyDirCopy_self_isSome _ _ _
  · intro _
    refine ⟨?_, ?_⟩
    · intro e he hu
      exact applyDirCopy_sub_isSome he hu
    · intro a ha
      obtain ⟨k, hk⟩ := Option.isSome_iff_exists.mp (createParents_anc_isSome (d := d) ha)
      have : lookupEntry (applyDirCopy src (createParents d p) p).entries a = some k :=
        addFold_stable _ _ _ (addIfAbsent_stable hk)
      rw [show FSys.lookup (applyDirCopy src (createParents d p) p) a = some k from this]
      rfl

theorem fileCopy_props {src d : FSys} {p : String} {sk : FKind}
    (hA : Agrees src d)
    (hanc : ∀ a ∈ ancestorsOf p, src.lookup a = some FKind.dir)
    (hsk : src.lookup p = some sk) (hnd : sk ≠ FKind.dir) :
    Agrees src ⟨addIfAbsent (createParents d p).entries p sk⟩
    ∧ SubFS d ⟨addIfAbsent (createParents d p).entries p sk⟩
    ∧ StepPost src ⟨addIfAbsent (createParents d p).entries p sk⟩ p := by
  refine ⟨?_, ?_, ?_, ?_⟩
  · intro q k hk
    rcases addIfAbsent_cases hk with h1 | ⟨rfl, rfl⟩
    · rcases createParents_cases h1 with h2 | ⟨hqa, rfl⟩
      · exact hA q k h2
      · exact hanc q hqa
    · exact hsk
  · intro q k hk
    exact addIfAbsent_stable (createParents_stable hk)
  · exact addIfAbsent_self_isSome _ _ _
  · intro hdir
    rw [hsk] at hdir
    injection hdir with hdir
    exact absurd hdir hnd

theorem runStep_props (linkOk : String → Bool) {src d : FSys} {p : String}
    (hkeys : src.entries.Pairwise (fun e f => e.1 ≠ f.1))
    (hA : Agrees src d)
    (hsome : (src.lookup p).isSome)
    (hanc : ∀ a ∈ ancestorsOf p, src.lookup a = some FKind.dir) :
    ∃ d2 act, runStep linkOk src d p = Except.ok (d2, act)
      ∧ Agrees src d2 ∧ SubFS d d2 ∧ StepPost src d2 p := by
  obtain ⟨sk, hsk⟩ := Option.isSome_iff_exists.mp hsome
  have hpOk : parentsOk linkOk d p = true := parentsOk_of_agrees hA hanc linkOk
  rcases hd : d.lookup p with _ | k0
  · cases sk with
    | dir =>
      obtain ⟨hA2, hS2, hP2⟩ := dirCopy_props hkeys hA hanc hsk
      exact ⟨_, CopyAction.copiedDir, by unfold runStep; rw [hsk, hd, hpOk]; rfl, hA2, hS2, hP2⟩
    | file =>
      obtain ⟨hA2, hS2, hP2⟩ := fileCopy_props hA hanc hsk (by simp)
      exact ⟨_, CopyAction.copiedFile, by unfold runStep; rw [hsk, hd, hpOk]; rfl, hA2, hS2, hP2⟩
    | symlink =>
      obtain ⟨hA2, hS2, hP2⟩ := fileCopy_props hA hanc hsk (by simp)
      exact ⟨_, CopyAction.copiedFile, by unfold runStep; rw [hsk, hd, hpOk]; rfl, hA2, hS2, hP2⟩
  · have hk0 : sk = k0 := by
      have h2 := hA p k0 hd
      rw [hsk] at h2
      exact Option.some_injective _ h2
    subst hk0
    cases sk with
    | dir =>
      obtain ⟨hA2, hS2, hP2⟩ := dirCopy_props hkeys hA hanc hsk
      exact ⟨_, CopyAction.mergedDir, by unfold runStep; rw [hsk, hd, hpOk]; rfl, hA2, hS2, hP2⟩
    | file =>
      refine ⟨d, CopyAction.skipped, by unfold runStep; rw [hsk, hd]; rfl, hA, subFS_refl d, ?_, ?_⟩
      · rw [show d.lookup p = some FKind.file from hd]; rfl
      · intro hdir
        rw [hsk] at hdir
        injection hdir with hdir
        exact absurd hdir (by simp)
    | symlink =>
      refine ⟨d, CopyAction.skipped, by unfold runStep; rw [hsk, hd]; rfl, hA, subFS_refl d, ?_, ?_⟩
      · rw [show d.lookup p = some FKind.symlink from hd]; rfl
      · intro hdir
        rw [hsk] at hdir
        injection hdir with hdir
        exact absurd hdir (by simp)

theorem runCopy_props (linkOk : String → Bool) {src : FSys}
    (hkeys : src.entries.Pairwise (fun e f => e.1 ≠ f.1)) :
    ∀ (plan : List String) (d0 : FSys), Agrees src d0 →
    (∀ p ∈ plan, (src.lookup p).isSome ∧
      ∀ a ∈ ancestorsOf p, src.lookup a = some FKind.dir) →
    ∀ d, runCopy linkOk src plan d0 = Except.ok d →
    Agrees src d ∧ SubFS d0 d ∧ ∀ p ∈ plan, StepPost src d p := by
  intro plan
  induction plan with
  | nil =>
    intro d0 hA _ d h
    unfold runCopy at h
    injection h with h
    subst h
    exact ⟨hA, subFS_refl _, fun p hp => absurd hp (List.not_mem_nil _)⟩
  | cons p rest ih =>
    intro d0 hA hall d h
    obtain ⟨d2, act, heq, hA2, hS2, hP2⟩ :=
      runStep_props linkOk hkeys hA (hall p (List.mem_cons_self _ _)).1
        (hall p (List.mem_cons_self _ _)).2
    unfold runCopy at h
    rw [heq] at h
    obtain ⟨hAd, hSd, hposts⟩ :=
      ih d2 hA2 (fun q hq => hall q (List.mem_cons_of_mem _ hq)) d h
    refine ⟨hAd, subFS_trans hS2 hSd, ?_⟩
    intro q hq
    rcases List.mem_cons.mp hq with rfl | hq
    · exact stepPost_mono hSd hP2
    · exact hposts q hq

theorem runCopy_fixpoint (linkOk : String → Bool) {src : FSys} :
    ∀ (plan : List String) (d : FSys), Agrees src d →
    (∀ p ∈ plan, (src.lookup p).isSome ∧
      (∀ a ∈ ancestorsOf p, src.lookup a = some FKind.dir) ∧ StepPost src d p) →
    runCopy linkOk src plan d = Except.ok d := by
  intro plan
  induction plan with
  | nil => intro d _ _; rfl
  | cons p rest ih =>
    intro d hA hall
    obtain ⟨hsome, hanc, hpost⟩ := hall p (List.mem_cons_self _ _)
    obtain ⟨sk, hsk⟩ := Option.isSome_iff_exists.mp hsome
    obtain ⟨k0, hd⟩ := Option.isSome_iff_exists.mp hpost.1
    have hk0 : sk = k0 := by
      have h2 := hA p k0 hd
      rw [hsk] at h2
      exact Option.some_injective _ h2
    subst hk0
    have hrest : ∀ q ∈ rest, (src.lookup q).isSome ∧
        (∀ a ∈ ancestorsOf q, src.lookup a = some FKind.dir) ∧ StepPost src d q :=
      fun q hq => hall q (List.mem_cons_of_mem _ hq)
    cases sk with
    | dir =>
      have hpOk : parentsOk linkOk d p = true := parentsOk_of_agrees hA hanc linkOk
      obtain ⟨hsubs, hancs⟩ := hpost.2 hsk
      have hcp : createParents d p = d :=
        createParents_noop (fun a ha => hancs a ha)
      have hadc : applyDirCopy src d p = d :=
        applyDirCopy_noop hpost.1 (fun e he hu => hsubs e he hu)
      have hstep : runStep linkOk src d p = Except.ok (d, CopyAction.mergedDir) := by
        unfold runStep
        rw [hsk, hd, hpOk, hcp, hadc]
        rfl
      unfold runCopy
      rw [hstep]
      exact ih d hA hrest
    | file =>
      have hstep : runStep linkOk src d p = Except.ok (d, CopyAction.skipped) := by
        unfold runStep
        rw [hsk, hd]
        rfl
      unfold runCopy
      rw [hstep]
      exact ih d hA hrest
    | symlink =>
      have hstep : runStep linkOk src d p = Except.ok (d, CopyAction.skipped) := by
        unfold runStep
        rw [hsk, hd]
        rfl
      unfold runCopy
      rw [hstep]
      exact ih d hA hrest

theorem findMatches_props {fs : FSys}
    (hnorm : ∀ e ∈ fs.entries, normalizeRelPath e.1 = e.1) (pat : String) :
    ∀ m ∈ findMatches fs pat, (fs.lookup m).isSome ∧ normalizeRelPath m = m := by
  intro m hm
  unfold findMatches at hm
  by_cases hmeta : hasMeta pat = false
  · rw [if_pos hmeta] at hm
    by_cases h0 : normalizeRelPath pat = ""
    · rw [if_pos h0] at hm
      exact absurd hm (List.not_mem_nil _)
    · rw [if_neg h0] at hm
      by_cases h1 : (fs.lookup (normalizeRelPath pat)).isSome
      · rw [if_pos h1] at hm
        rw [List.mem_singleton.mp hm]
        refine ⟨h1, ?_⟩
        obtain ⟨k, hk⟩ := Option.isSome_iff_exists.mp h1
        exact hnorm (normalizeRelPath pat, k) (lookupEntry_mem hk)
      · rw [if_neg h1] at hm
        exact absurd hm (List.not_mem_nil _)
  · rw [if_neg hmeta] at hm
    obtain ⟨q, hq, hfq⟩ := List.mem_filterMap.mp hm
    by_cases hg : globMatch pat q = true
    · rw [if_pos hg] at hfq
      by_cases h0 : normalizeRelPath q = ""
      · rw [if_pos h0] at hfq
        exact absurd hfq (by simp)
      · rw [if_neg h0] at hfq
        injection hfq with hfq
        obtain ⟨e, he, hek⟩ := List.mem_map.mp hq
        have hqn : normalizeRelPath q = q := by
          rw [← hek]
          exact hnorm e he
        rw [← hfq, hqn]
        exact ⟨lookupEntry_isSome_of_key ⟨e, he, hek⟩, hqn⟩
    · rw [if_neg hg] at hfq
      exact absurd hfq (by simp)

theorem copyPlan_props {fs : FSys} (patterns : List String)
    (hnorm : ∀ e ∈ fs.entries, normalizeRelPath e.1 = e.1)
    (hanc : ∀ e ∈ fs.entries, ∀ a ∈ ancestorsOf e.1, fs.lookup a = some FKind.dir) :
    ∀ p ∈ copyPlan fs patterns,
      (fs.lookup p).isSome ∧ ∀ a ∈ ancestorsOf p, fs.lookup a = some FKind.dir := by
  intro p hp
  unfold copyPlan sortLex at hp
  have hp2 : p ∈ filterDescendants fs (buildMatches fs patterns) :=
    (List.perm_insertionSort strLe _).mem_iff.mp hp
  obtain ⟨m, hm, hpm⟩ := List.mem_map.mp (filterDescendants_subset _ _ p hp2)
  obtain ⟨⟨hne, pat, hpat, hb, hmf⟩, _⟩ := (mem_buildMatches fs patterns m).mp hm
  obtain ⟨hsome, hmn⟩ := findMatches_props hnorm pat m hmf
  have hpm2 : p = m := by rw [← hpm, hmn]
  rw [hpm2]
  obtain ⟨k, hk⟩ := Option.isSome_iff_exists.mp hsome
  exact ⟨hsome, fun a ha => hanc (m, k) (lookupEntry_mem hk) a ha⟩

/-- C7: running the copier twice with the same patterns and the same
well-formed source snapshot (unique normalized entry paths whose parent
chains are directory entries, as an Lstat walk produces) into an
initially empty destination yields the same destination tree as running
it once: the second run succeeds and changes nothing, files being
skipped under the no-clobber rule and directories merging with no
changes. -/
theorem c7_copy_idempotent (linkOk : String → Bool) (src : FSys) (patterns : List String)
    (hkeys : src.entries.Pairwise (fun e f => e.1 ≠ f.1))
    (hnorm : ∀ e ∈ src.entries, normalizeRelPath e.1 = e.1)
    (hanc : ∀ e ∈ src.entries, ∀ a ∈ ancestorsOf e.1, src.lookup a = some FKind.dir)
    (d : FSys)
    (h1 : CopyFiles linkOk src patterns ⟨[]⟩ = Except.ok d) :
    CopyFiles linkOk src patterns d = Except.ok d := by
  unfold CopyFiles at h1 ⊢
  by_cases hp : patterns = []
  · rw [if_pos hp] at h1 ⊢
  · rw [if_neg hp] at h1 ⊢
    have hplan : ∀ p ∈ copyPlan src patterns, (src.lookup p).isSome ∧
        ∀ a ∈ ancestorsOf p, src.lookup a = some FKind.dir :=
      copyPlan_props patterns hnorm hanc
    have hA0 : Agrees src ⟨[]⟩ := by
      intro q k hk
      exact absurd hk (by simp [FSys.lookup, lookupEntry])
    obtain ⟨hAd, _, hposts⟩ :=
      runCopy_props linkOk hkeys (copyPlan src patterns) ⟨[]⟩ hA0 hplan d h1
    exact runCopy_fixpoint linkOk (copyPlan src patterns) d hAd
      (fun p hp2 => ⟨(hplan p hp2).1, (hplan p hp2).2, hposts p hp2⟩)

def c7src : FSys := ⟨[("d", FKind.dir), ("d/f", FKind.file), ("g", FKind.file)]⟩

theorem c7_copy_idempotent_witness :
    CopyFiles (fun _ => false) c7src ["d", "g", "d/f"]
      ⟨[("d", FKind.dir), ("d/f", FKind.file), ("g", FKind.file)]⟩ =
    Except.ok ⟨[("d", FKind.dir), ("d/f", FKind.file), ("g", FKind.file)]⟩ :=
  c7_copy_idempotent (fun _ => false) c7src ["d", "g", "d/f"]
    (by decide) (by decide) (by decide) _ (by rfl)

/-- A selectable item of the fuzzy selector: displayed label, opaque
value. -/
structure Item where
  label : String
  value : String
deriving DecidableEq

/-- One row of the ranked view: the item, its match score, the matched
character indices used for highlighting, and the stable index of the
item in the immutable backing list. -/
structure ScoredItem where
  item : Item
  score : Nat
  positions : List Nat
  origIndex : Nat
deriving DecidableEq

/-- Leftmost embedding of the pattern into the text, as character
indices counted from `i`: succeeds exactly when the pattern is an
ordered subsequence of the text. -/
def subseqPos : List Char → List Char → Nat → Option (List Nat)
  | [], _, _ => some []
  | _ :: _, [], _ => none
  | q :: qs, c :: cs, i =>
    if q = c then (subseqPos qs cs (i + 1)).map (fun ps => i :: ps)
    else subseqPos (q :: qs) cs (i + 1)

def lowerChars (s : String) : List Char :=
  s.toList.map Char.toLower

/-- Modelled from the spec: the external fzf `algo.FuzzyMatchV2` call of
`filterItems` (case-insensitive, forward, with positions). The spec
requires only that a match succeeds exactly when the query characters
appear in order in the label, yields a positive score, and reports the
matched character indices; the exact scoring weights are implementation
freedom, modelled as sixteen per matched character. Unicode
normalization beyond lowercasing is outside the model. -/
def fuzzyMatchV2 (label : String) (patternLower : List Char) : Option (Nat × List Nat) :=
  (subseqPos patternLower (lowerChars label) 0).map
    (fun ps => (16 * patternLower.length, ps))

/-- The indexed item traversal of `for i, item := range m.items`. -/
def enumFromIdx : Nat → List Item → List (Nat × Item)
  | _, [] => []
  | n, it :: rest => (n, it) :: enumFromIdx (n + 1) rest

/-- The match-collection loop of `filterItems`: each matching item joins
the view once, with its score, positions and original index. -/
def scoredOf (qL : List Char) (n : Nat) (l : List Item) : List ScoredItem :=
  (enumFromIdx n l).filterMap (fun pr =>
    (fuzzyMatchV2 pr.2.label qL).map (fun r => ⟨pr.2, r.1, r.2, pr.1⟩))

/-- Transcription of `filterItems` in selector.go: an empty query shows
every item in original order with zero score and no highlights; a
non-empty query is lowercased, matched against every item, and the
matches are sorted by score descending (`sort.Slice` is unstable on
ties; insertion sort models one deterministic tie order, and every
property proved below is invariant under tie reordering). -/
def filterItems (items : List Item) (query : String) : List ScoredItem :=
  if query = "" then
    (enumFromIdx 0 items).map (fun pr => ⟨pr.2, 0, [], pr.1⟩)
  else
    List.insertionSort (fun a b => b.score ≤ a.score)
      (scoredOf (lowerChars query) 0 items)

theorem subseqPos_isSome_iff :
    ∀ (cs qs : List Char) (i : Nat), (subseqPos qs cs i).isSome ↔ qs.Sublist cs := by
  intro cs
  induction cs with
  | nil =>
    intro qs i
    cases qs with
    | nil => simp [subseqPos]
    | cons q qs => simp [subseqPos]
  | cons c cs ih =>
    intro qs i
    cases qs with
    | nil => simp [subseqPos, List.nil_sublist]
    | cons q qs =>
      by_cases hqc : q = c
      · subst hqc
        have hred : subseqPos (q :: qs) (q :: cs) i =
            (subseqPos qs cs (i + 1)).map (fun ps => i :: ps) := by
          simp [subseqPos]
        rw [hred]
        constructor
        · intro h
          rcases hsp : subseqPos qs cs (i + 1) with _ | ps
          · rw [hsp] at h
            simp at h
          · have h2 : qs.Sublist cs := (ih qs (i + 1)).mp (by rw [hsp]; rfl)
            exact h2.cons₂ q
        · intro h
          have h2 : qs.Sublist cs := by
            cases h with
            | cons _ h3 => exact (List.sublist_cons_self q qs).trans h3
            | cons₂ _ h3 => exact h3
          obtain ⟨ps, hps⟩ := Option.isSome_iff_exists.mp ((ih qs (i + 1)).mpr h2)
          rw [hps]
          rfl
      · simp only [subseqPos, if_neg hqc]
        rw [ih (q :: qs) (i + 1)]
        constructor
        · intro h
          exact h.cons c
        · intro h
          cases h with
          | cons _ h2 => exact h2
          | cons₂ _ h2 => exact absurd rfl hqc

theorem subseqPos_length :
    ∀ (qs cs : List Char) (i : Nat) (ps : List Nat),
    subseqPos qs cs i = some ps → ps.length = qs.length := by
  intro qs
  induction qs with
  | nil =>
    intro cs i ps h
    cases cs with
    | nil =>
      simp only [subseqPos] at h
      cases h
      rfl
    | cons c cs =>
      simp only [subseqPos] at h
      cases h
      rfl
  | cons q qs ih =>
    intro cs i ps h
    induction cs generalizing i ps with
    | nil => simp [subseqPos] at h
    | cons c cs ihc =>
      by_cases hqc : q = c
      · subst hqc
        simp only [subseqPos, if_pos rfl] at h
        rcases hsp : subseqPos qs cs (i + 1) with _ | ps2
        · rw [hsp] at h; simp at h
        · rw [hsp] at h
          injection h with h
          rw [← h]
          simp [ih cs (i + 1) ps2 hsp]
      · simp only [subseqPos, if_neg hqc] at h
        exact ihc (i + 1) ps h

theorem scoredOf_cons_none {qL : List Char} {it : Item} {n : Nat} {rest : List Item}
    (h : fuzzyMatchV2 it.label qL = none) :
    scoredOf qL n (it :: rest) = scoredOf qL (n + 1) rest := by
  simp [scoredOf, enumFromIdx, List.filterMap_cons, h]

theorem scoredOf_cons_some {qL : List Char} {it : Item} {n : Nat} {rest : List Item}
    {r : Nat × List Nat} (h : fuzzyMatchV2 it.label qL = some r) :
    scoredOf qL n (it :: rest) =
      ⟨it, r.1, r.2, n⟩ :: scoredOf qL (n + 1) rest := by
  simp [scoredOf, enumFromIdx, List.filterMap_cons, h]

theorem scoredOf_idx_ge {qL : List Char} :
    ∀ (l : List Item) (n : Nat) (s : ScoredItem), s ∈ scoredOf qL n l → n ≤ s.origIndex := by
  intro l
  induction l with
  | nil => intro n s h; simp [scoredOf, enumFromIdx] at h
  | cons it rest ih =>
    intro n s h
    rcases hF : fuzzyMatchV2 it.label qL with _ | r
    · rw [scoredOf_cons_none hF] at h
      exact le_trans (Nat.le_succ n) (ih (n + 1) s h)
    · rw [scoredOf_cons_some hF] at h
      rcases List.mem_cons.mp h with rfl | h
      · exact le_refl n
      · exact le_trans (Nat.le_succ n) (ih (n + 1) s h)

theorem scoredOf_mem_props {qL : List Char} :
    ∀ (l : List Item) (n : Nat) (s : ScoredItem), s ∈ scoredOf qL n l →
    ∃ j, ∃ h : j < l.length, s.origIndex = n + j ∧ s.item = l.get ⟨j, h⟩ ∧
      ∃ ps, subseqPos qL (lowerChars s.item.label) 0 = some ps ∧ s.positions = ps := by
  intro l
  induction l with
  | nil => intro n s h; simp [scoredOf, enumFromIdx] at h
  | cons it rest ih =>
    intro n s h
    rcases hF : fuzzyMatchV2 it.label qL with _ | r
    · rw [scoredOf_cons_none hF] at h
      obtain ⟨j, hj, h1, h2, h3⟩ := ih (n + 1) s h
      refine ⟨j + 1, by simpa using Nat.succ_lt_succ hj, by omega, ?_, h3⟩
      simpa using h2
    · rw [scoredOf_cons_some hF] at h
      rcases List.mem_cons.mp h with rfl | h
      · obtain ⟨ps, hps, hr⟩ := Option.map_eq_some'.mp hF
        refine ⟨0, by simp, by simp, by simp, ps, ?_, ?_⟩
        · exact hps
        · rw [← hr]
      · obtain ⟨j, hj, h1, h2, h3⟩ := ih (n + 1) s h
        refine ⟨j + 1, by simpa using Nat.succ_lt_succ hj, by omega, ?_, h3⟩
        simpa using h2

theorem scoredOf_mem_intro {qL : List Char} (hqL : qL ≠ []) :
    ∀ (l : List Item) (n j : Nat) (h : j < l.length),
    (subseqPos qL (lowerChars (l.get ⟨j, h⟩).label) 0).isSome →
    ∃ s ∈ scoredOf qL n l, s.origIndex = n + j ∧ s.positions ≠ [] := by
  intro l
  induction l with
  | nil => intro n j h; simp at h
  | cons it rest ih =>
    intro n j h hsub
    cases j with
    | zero =>
      obtain ⟨ps, hps⟩ := Option.isSome_iff_exists.mp hsub
      have hF : fuzzyMatchV2 it.label qL = some (16 * qL.length, ps) := by
        unfold fuzzyMatchV2
        rw [show subseqPos qL (lowerChars it.label) 0 = some ps from hps]
        rfl
      refine ⟨⟨it, 16 * qL.length, ps, n⟩, ?_, by simp, ?_⟩
      · rw [scoredOf_cons_some hF]
        exact List.mem_cons_self _ _
      · intro hcon
        have hps0 : ps = [] := hcon
        have hlen := subseqPos_length qL (lowerChars it.label) 0 ps hps
        rw [hps0] at hlen
        simp only [List.length_nil] at hlen
        exact hqL (List.length_eq_zero.mp hlen.symm)
    | succ j =>
      have h2 : j < rest.length := by simpa using Nat.lt_of_succ_lt_succ h
      have hget : (it :: rest).get ⟨j + 1, h⟩ = rest.get ⟨j, h2⟩ := by simp
      rw [hget] at hsub
      obtain ⟨s, hs, hidx, hpos⟩ := ih (n + 1) j h2 hsub
      rcases hF : fuzzyMatchV2 it.label qL with _ | r
      · rw [scoredOf_cons_none hF]
        exact ⟨s, hs, by omega, hpos⟩
      · rw [scoredOf_cons_some hF]
        exact ⟨s, List.mem_cons_of_mem _ hs, by omega, hpos⟩

theorem scoredOf_countP_zero (qL : List Char) :
    ∀ (l : List Item) (n i : Nat), i < n →
    (scoredOf qL n l).countP (fun s => decide (s.origIndex = i)) = 0 := by
  intro l n i hlt
  rw [List.countP_eq_zero]
  intro s hs
  have := scoredOf_idx_ge l n s hs
  simp only [decide_eq_true_eq]
  omega

theorem scoredOf_countP_le_one (qL : List Char) :
    ∀ (l : List Item) (n i : Nat),
    (scoredOf qL n l).countP (fun s => decide (s.origIndex = i)) ≤ 1 := by
  intro l
  induction l with
  | nil => intro n i; simp [scoredOf, enumFromIdx]
  | cons it rest ih =>
    intro n i
    rcases hF : fuzzyMatchV2 it.label qL with _ | r
    · rw [scoredOf_cons_none hF]
      exact ih (n + 1) i
    · rw [scoredOf_cons_some hF, List.countP_cons]
      by_cases hi : n = i
      · subst hi
        have hz := scoredOf_countP_zero qL rest (n + 1) n (Nat.lt_succ_self n)
        simp [hz]
      · have : (decide ((⟨it, r.1, r.2, n⟩ : ScoredItem).origIndex = i)) = false := by
          simp only [decide_eq_false_iff_not]
          exact hi
        rw [this]
        simpa using ih (n + 1) i

theorem scoredOf_nil_of_nomatch {qL : List Char} :
    ∀ (l : List Item) (n : Nat),
    (∀ it ∈ l, ¬ qL.Sublist (lowerChars it.label)) → scoredOf qL n l = [] := by
  intro l
  induction l with
  | nil => intro n _; rfl
  | cons it rest ih =>
    intro n h
    have hF : fuzzyMatchV2 it.label qL = none := by
      unfold fuzzyMatchV2
      rw [Option.not_isSome_iff_eq_none.mp (fun hcon =>
        h it (List.mem_cons_self _ _) ((subseqPos_isSome_iff _ _ _).mp hcon))]
      rfl
    rw [scoredOf_cons_none hF]
    exact ih (n + 1) (fun x hx => h x (List.mem_cons_of_mem _ hx))

theorem lowerChars_ne_nil {s : String} (h : s ≠ "") : lowerChars s ≠ [] := by
  intro hcon
  apply h
  apply toList_injective
  unfold lowerChars at hcon
  rw [List.map_eq_nil_iff] at hcon
  rw [hcon]
  rfl

/-- C4: for every backing list and non-empty query, an item whose
lowercased label contains the lowercased query as an ordered
subsequence appears in the ranked view exactly once (counted by its
stable original index) with at least one highlight position; every row
of the ranked view is such an item; and if no label matches, the ranked
view is empty. -/
theorem c4_ranked_view (items : List Item) (query : String) (hq : query ≠ "") :
    (∀ i, ∀ h : i < items.length,
      (lowerChars query).Sublist (lowerChars (items.get ⟨i, h⟩).label) →
      (filterItems items query).countP (fun s => decide (s.origIndex = i)) = 1
        ∧ ∃ s ∈ filterItems items query, s.origIndex = i ∧ s.positions ≠ [])
    ∧ (∀ s ∈ filterItems items query, ∃ h : s.origIndex < items.length,
        s.item = items.get ⟨s.origIndex, h⟩
        ∧ (lowerChars query).Sublist (lowerChars s.item.label))
    ∧ ((∀ it ∈ items, ¬ (lowerChars query).Sublist (lowerChars it.label)) →
        filterItems items query = []) := by
  have hfi : filterItems items query =
      List.insertionSort (fun a b => b.score ≤ a.score)
        (scoredOf (lowerChars query) 0 items) := by
    unfold filterItems
    rw [if_neg hq]
  have hperm := List.perm_insertionSort (fun a b : ScoredItem => b.score ≤ a.score)
    (scoredOf (lowerChars query) 0 items)
  refine ⟨?_, ?_, ?_⟩
  · intro i h hmatch
    obtain ⟨s, hs, hidx, hpos⟩ := scoredOf_mem_intro (lowerChars_ne_nil hq) items 0 i h
      ((subseqPos_isSome_iff _ _ _).mpr hmatch)
    rw [Nat.zero_add] at hidx
    constructor
    · rw [hfi, hperm.countP_eq]
      have hle := scoredOf_countP_le_one (lowerChars query) items 0 i
      have hpos2 : 0 < (scoredOf (lowerChars query) 0 items).countP
          (fun s => decide (s.origIndex = i)) := by
        rw [List.countP_pos_iff]
        exact ⟨s, hs, by simp [hidx]⟩
      omega
    · refine ⟨s, ?_, hidx, hpos⟩
      rw [hfi, List.mem_insertionSort]
      exact hs
  · intro s hs
    rw [hfi, List.mem_insertionSort] at hs
    obtain ⟨j, hj, hidx, hitem, ps, hps, _⟩ := scoredOf_mem_props items 0 s hs
    rw [Nat.zero_add] at hidx
    subst hidx
    refine ⟨hj, hitem, ?_⟩
    exact (subseqPos_isSome_iff _ _ _).mp (by rw [hps]; rfl)
  · intro hnone
    rw [hfi, scoredOf_nil_of_nomatch items 0 hnone]
    rfl

def c4items : List Item :=
  [⟨"feature/auth", "auth"⟩, ⟨"main", "main"⟩, ⟨"auth-feature", "af"⟩]

theorem c4_ranked_view_witness :
    (filterItems c4items "auth").countP (fun s => decide (s.origIndex = 0)) = 1
    ∧ ∃ s ∈ filterItems c4items "auth", s.origIndex = 0 ∧ s.positions ≠ [] :=
  (c4_ranked_view c4items "auth" (by decide)).1 0 (by decide) (by decide)

/-- Key events the selector Update handles; `char` and `backspace` reach
the text input (the default branch), the rest are intercepted. -/
inductive SKey
  | esc
  | enter
  | up
  | down
  | tab
  | char (c : Char)
  | backspace
deriving DecidableEq

/-- Session state of the selector, as in `selectorModel`; the checked
map is total with a false default, as a Go map read. -/
structure SelState where
  items : List Item
  query : String
  filtered : List ScoredItem
  cursor : Nat
  selected : String
  quitting : Bool
  multiSelect : Bool
  checked : Nat → Bool
  cancelled : Bool

/-- Transcription of `newSelectorModel`: all items shown in original
order, nothing checked, cursor at zero. -/
def newSelectorModel (items : List Item) (multi : Bool) : SelState :=
  { items := items, query := "", filtered := filterItems items "",
    cursor := 0, selected := "", quitting := false, multiSelect := multi,
    checked := fun _ => false, cancelled := false }

def dropLastChar (s : String) : String :=
  String.mk s.toList.dropLast

/-- The cursor handling of the `filterItems` method: an empty query
resets the cursor, otherwise it is clamped into the new view. -/
def applyFilter (st : SelState) : SelState :=
  if st.query = "" then
    { st with filtered := filterItems st.items st.query, cursor := 0 }
  else if (filterItems st.items st.query).length ≤ st.cursor then
    { st with
      filtered := filterItems st.items st.query,
      cursor := (filterItems st.items st.query).length - 1 }
  else
    { st with filtered := filterItems st.items st.query }

/-- Transcription of `selectorModel.Update` on key events: escape
cancels; enter confirms (capturing the cursor row in single-select);
up and down move the cursor within bounds; tab, in multi-select with a
non-empty view, toggles the checked flag keyed by the cursor row's
original index and advances the cursor; character and backspace events
edit the query and re-rank. The bubbles text input leaves the buffer
unchanged for the intercepted keys. -/
def selStep (st : SelState) (k : SKey) : SelState :=
  match k with
  | SKey.esc => { st with quitting := true, cancelled := true }
  | SKey.enter =>
    if 0 < st.filtered.length ∧ st.multiSelect = false then
      { st with
        selected := (match st.filtered.get? st.cursor with
          | some s => s.item.value
          | none => st.selected),
        quitting := true }
    else { st with quitting := true }
  | SKey.up => if 0 < st.cursor then { st with cursor := st.cursor - 1 } else st
  | SKey.down =>
    if st.cursor < st.filtered.length - 1 then { st with cursor := st.cursor + 1 } else st
  | SKey.tab =>
    if st.multiSelect = true ∧ 0 < st.filtered.length then
      match st.filtered.get? st.cursor with
      | some s =>
        { st with
          checked := fun j =>
            if j = s.origIndex then !(st.checked s.origIndex) else st.checked j,
          cursor := if st.cursor < st.filtered.length - 1 then st.cursor + 1 else st.cursor }
      | none => st
    else st
  | SKey.char c => applyFilter { st with query := st.query.push c }
  | SKey.backspace => applyFilter { st with query := dropLastChar st.query }

def c9items : List Item := [⟨"alpha", "a"⟩, ⟨"beta", "b"⟩]

def c9s1 : SelState := selStep (newSelectorModel c9items true) SKey.tab

def c9s2 : SelState := selStep c9s1 (SKey.char 'b')

def c9s3 : SelState := selStep c9s2 SKey.backspace

/-- C9: no key except tab ever changes the checked map, so query edits
never touch multi-select state; concretely, after checking the first
item, typing a query that hides it, and clearing the query, the item is
back in the view and still checked. -/
theorem c9_checked_survives_query (st : SelState) (k : SKey) (hk : k ≠ SKey.tab) :
    (∀ j, (selStep st k).checked j = st.checked j)
    ∧ c9s1.checked 0 = true
    ∧ (∀ s ∈ c9s2.filtered, s.origIndex ≠ 0)
    ∧ (∃ s ∈ c9s3.filtered, s.origIndex = 0)
    ∧ c9s3.checked 0 = true := by
  refine ⟨?_, by decide, by decide, by decide, by decide⟩
  intro j
  cases k with
  | esc => rfl
  | enter =>
    simp only [selStep]
    split <;> rfl
  | up =>
    simp only [selStep]
    split <;> rfl
  | down =>
    simp only [selStep]
    split <;> rfl
  | tab => exact absurd rfl hk
  | char c =>
    simp only [selStep, applyFilter]
    split
    · rfl
    · split <;> rfl
  | backspace =>
    simp only [selStep, applyFilter]
    split
    · rfl
    · split <;> rfl

theorem c9_checked_survives_query_witness :
    (selStep c9s1 (SKey.char 'b')).checked 0 = c9s1.checked 0 :=
  (c9_checked_survives_query c9s1 (SKey.char 'b') (by decide)).1 0

/-- Key events the confirm prompt handles, by the `msg.String()` cases
of `confirmModel.Update`; `other` stands for every unhandled key. -/
inductive CKey
  | ctrlc
  | esc
  | enter
  | left
  | hKey
  | right
  | lKey
  | yKey
  | yUpper
  | nKey
  | nUpper
  | other
deriving DecidableEq

/-- State of the confirm prompt; `result` starts at the Go zero value. -/
structure ConfirmState where
  message : String
  selected : Bool
  quitting : Bool
  result : Bool

/-- Transcription of `newConfirmModel`: the pending boolean starts in
the No state. -/
def newConfirmModel (message : String) : ConfirmState :=
  { message := message, selected := false, quitting := false, result := false }

/-- Transcription of `confirmModel.Update`: escape and ctrl-c finalize
to false; enter finalizes to the pending boolean; left and h select
Yes, right and l select No; y and Y finalize to true, n and N to
false; any other key changes nothing. -/
def confirmStep (st : ConfirmState) (k : CKey) : ConfirmState :=
  match k with
  | CKey.ctrlc => { st with quitting := true, result := false }
  | CKey.esc => { st with quitting := true, result := false }
  | CKey.enter => { st with quitting := true, result := st.selected }
  | CKey.left => { st with selected := true }
  | CKey.hKey => { st with selected := true }
  | CKey.right => { st with selected := false }
  | CKey.lKey => { st with selected := false }
  | CKey.yKey => { st with quitting := true, result := true }
  | CKey.yUpper => { st with quitting := true, result := true }
  | CKey.nKey => { st with quitting := true, result := false }
  | CKey.nUpper => { st with quitting := true, result := false }
  | CKey.other => st

/-- C10: in a confirm session where enter is pressed after only
unhandled keys (no yes/no or left/right selection), the finalized
result is false: the pending boolean is initialized to the No state
and enter returns it. -/
theorem c10_confirm_default_no (message : String) (evs : List CKey)
    (hn : ∀ e ∈ evs, e = CKey.other) :
    (confirmStep (evs.foldl confirmStep (newConfirmModel message)) CKey.enter).result
      = false := by
  have hst : ∀ (l : List CKey), (∀ e ∈ l, e = CKey.other) →
      ∀ (st : ConfirmState), l.foldl confirmStep st = st := by
    intro l
    induction l with
    | nil => intro _ st; rfl
    | cons e rest ih =>
      intro h st
      rw [List.foldl_cons, show e = CKey.other from h e (List.mem_cons_self _ _)]
      exact ih (fun x hx => h x (List.mem_cons_of_mem _ hx)) st
  rw [hst evs hn]
  rfl

theorem c10_confirm_default_no_witness :
    (confirmStep ([CKey.other].foldl confirmStep (newConfirmModel "delete worktree"))
      CKey.enter).result = false :=
  c10_confirm_default_no "delete worktree" [CKey.other] (by decide)
